import Mathlib

/-
Verification of the parameter-space segmentation and exploration engine of
pyfstat.py against its specification.

The numeric scalars of the Python code (numpy float64) are modelled as real
numbers; log-probabilities, which the code represents as floats together with
the IEEE infinities, are modelled as `EReal`.  Machine-level float rounding is
not modelled: the properties at issue are stated by the specification over the
reals ("exact, since the transform is the truncated Taylor expansion").
-/

open scoped Classical

namespace PyFstat

/-! ## Coefficient shift transform (`BaseSearchClass.shift_matrix`,
`BaseSearchClass.shift_coefficients`, pyfstat.py lines 93-129)

The Python loop fills an n x n matrix: the `i == j` branch is checked first
and writes `1.0`; entries below the diagonal are `0.0`; entries strictly above
the diagonal are `dT^(j-i)/(j-i)!`, additionally scaled by `2*pi` in row 0. -/

noncomputable def shift_matrix (n : ℕ) (dT : ℝ) : Matrix (Fin n) (Fin n) ℝ :=
  Matrix.of fun i j =>
    if (i : ℕ) = (j : ℕ) then 1
    else if (j : ℕ) < (i : ℕ) then 0
    else if (i : ℕ) = 0 then
      2 * Real.pi * dT ^ ((j : ℕ) - (i : ℕ)) / (Nat.factorial ((j : ℕ) - (i : ℕ)) : ℝ)
    else dT ^ ((j : ℕ) - (i : ℕ)) / (Nat.factorial ((j : ℕ) - (i : ℕ)) : ℝ)

/-- `shift_coefficients(theta, dT)` returns `np.dot(shift_matrix(len(theta), dT), theta)`. -/
noncomputable def shift_coefficients {n : ℕ} (theta : Fin n → ℝ) (dT : ℝ) : Fin n → ℝ :=
  (shift_matrix n dT).mulVec theta

set_option maxHeartbeats 4000000 in
/-- The product of a backward and a forward shift matrix is the identity, for
the vector lengths appearing in the code (1 through 7). -/
theorem shift_matrix_neg_mul (n : ℕ) (h1 : 1 ≤ n) (h7 : n ≤ 7) (dT : ℝ) :
    shift_matrix n (-dT) * shift_matrix n dT = 1 := by
  interval_cases n <;>
    · ext i j
      fin_cases i <;> fin_cases j <;>
        (simp only [Matrix.mul_apply, Fin.sum_univ_one, Fin.sum_univ_two, Fin.sum_univ_three,
            Fin.sum_univ_four, Fin.sum_univ_five, Fin.sum_univ_six, Fin.sum_univ_seven,
            shift_matrix, Matrix.of_apply, Matrix.one_apply] <;>
          norm_num [Nat.factorial, Fin.coe_ofNat_eq_mod, Fin.ext_iff] <;> ring_nf)

/-- C2: for every parameter-vector length n in [1,7], every real dT and every
theta, shifting by dT and then by -dT is the identity (exact over the reals). -/
theorem shift_then_unshift_id (n : ℕ) (h1 : 1 ≤ n) (h7 : n ≤ 7)
    (dT : ℝ) (theta : Fin n → ℝ) :
    shift_coefficients (shift_coefficients theta dT) (-dT) = theta := by
  unfold shift_coefficients
  rw [Matrix.mulVec_mulVec, shift_matrix_neg_mul n h1 h7 dT, Matrix.one_mulVec]

/-- Witness for C2 at the concrete input n = 3, dT = 1, theta = (1, 2, 3). -/
theorem shift_then_unshift_id_witness :
    shift_coefficients (shift_coefficients (![1, 2, 3] : Fin 3 → ℝ) 1) (-1) = ![1, 2, 3] :=
  shift_then_unshift_id 3 (by norm_num) (by norm_num) 1 ![1, 2, 3]

/-- C3 counterexample: the claim asserts every entry of row 0, including the
diagonal entry (0,0), is scaled by 2*pi, so entry (0,0) would be
`2*pi*dT^0/0! = 2*pi`; in the code the `i == j` branch fires first and the
entry is 1. -/
theorem shift_matrix_diag_not_two_pi :
    shift_matrix 2 1 0 0 = 1 ∧
      2 * Real.pi * (1 : ℝ) ^ (0 : ℕ) / (Nat.factorial 0 : ℝ) = 2 * Real.pi ∧
      (1 : ℝ) ≠ 2 * Real.pi := by
  refine ⟨by norm_num [shift_matrix], by norm_num, ?_⟩
  intro h
  nlinarith [Real.pi_gt_three]

/-- C3 amended: entry (i,j) of `shift_matrix n dT` is 0 below the diagonal and
`dT^(j-i)/(j-i)!` on and above it, with the strictly-upper entries of row 0
(but not the diagonal entry (0,0), which is 1) additionally scaled by 2*pi. -/
theorem shift_matrix_entry_closed_form (n : ℕ) (dT : ℝ) (i j : Fin n) :
    shift_matrix n dT i j =
      if (j : ℕ) < (i : ℕ) then 0
      else (if (i : ℕ) = 0 ∧ (i : ℕ) < (j : ℕ) then 2 * Real.pi else 1) *
        dT ^ ((j : ℕ) - (i : ℕ)) / (Nat.factorial ((j : ℕ) - (i : ℕ)) : ℝ) := by
  rcases lt_trichotomy ((i : ℕ)) ((j : ℕ)) with hij | hij | hij
  · have hne : ¬ (i : ℕ) = (j : ℕ) := hij.ne
    have hnlt : ¬ (j : ℕ) < (i : ℕ) := Nat.not_lt.mpr hij.le
    rw [if_neg hnlt]
    rcases Nat.eq_zero_or_pos (i : ℕ) with hi0 | hi0
    · have hL : shift_matrix n dT i j =
          2 * Real.pi * dT ^ ((j : ℕ) - (i : ℕ)) / (Nat.factorial ((j : ℕ) - (i : ℕ)) : ℝ) := by
        simp only [shift_matrix, Matrix.of_apply]
        rw [if_neg hne, if_neg hnlt, if_pos hi0]
      rw [hL, if_pos ⟨hi0, hij⟩]
    · have hne0 : ¬ (i : ℕ) = 0 := Nat.pos_iff_ne_zero.mp hi0
      have hL : shift_matrix n dT i j =
          dT ^ ((j : ℕ) - (i : ℕ)) / (Nat.factorial ((j : ℕ) - (i : ℕ)) : ℝ) := by
        simp only [shift_matrix, Matrix.of_apply]
        rw [if_neg hne, if_neg hnlt, if_neg hne0]
      rw [hL, if_neg (by tauto), one_mul]
  · have hnlt : ¬ (j : ℕ) < (i : ℕ) := by omega
    have hnp : ¬ ((i : ℕ) = 0 ∧ (i : ℕ) < (j : ℕ)) := by omega
    have h0 : (j : ℕ) - (i : ℕ) = 0 := by omega
    have hL : shift_matrix n dT i j = 1 := by
      simp only [shift_matrix, Matrix.of_apply]
      rw [if_pos hij]
    rw [hL, if_neg hnlt, if_neg hnp, h0]
    norm_num
  · have hne : ¬ (i : ℕ) = (j : ℕ) := hij.ne'
    have hL : shift_matrix n dT i j = 0 := by
      simp only [shift_matrix, Matrix.of_apply]
      rw [if_neg hne, if_pos hij]
    rw [hL, if_pos hij]

/-! ## Glitch segmentation evaluator (`SemiCoherentGlitchSearch`, pyfstat.py
lines 308-365)

The external detection-statistic evaluator
(`run_computefstatistic_single_point`, an opaque collaborator per spec section
6) is modelled as a function parameter `ev` taking
`(tstart, tend, F0, F1, F2, Alpha, Delta)`.  Besides the accumulated
statistic, the embedding returns a trace of the evaluator calls made, so that
"no second evaluation is performed" is a statement about the result. -/

/-- The loop body of `compute_nglitch_fstat`: iterates `count` more segments
starting at segment index `i`, carrying the current reference-time vector.
Per iteration: segment bounds are `tboundaries[i], tboundaries[i+1]`; for
`i > 0` the new vector shifts the previous one by `te - tref` (the END
boundary `tboundaries[i+1]`), adds the jump, and shifts back.  Returns the
accumulated sum and the trace of `(ts, te, theta)` evaluator arguments. -/
noncomputable def glitchSegLoop (ev : ℝ → ℝ → ℝ → ℝ → ℝ → ℝ → ℝ → ℝ)
    (tref Alpha Delta : ℝ) (tb dF0s dF1s : List ℝ) :
    ℕ → ℕ → (Fin 3 → ℝ) → ℝ × List (ℝ × ℝ × (Fin 3 → ℝ))
  | 0, _, _ => (0, [])
  | count + 1, i, thetaPrev =>
      let ts := tb.getD i 0
      let te := tb.getD (i + 1) 0
      let theta : Fin 3 → ℝ :=
        if i = 0 then thetaPrev
        else shift_coefficients
          (shift_coefficients thetaPrev (te - tref) + ![dF0s.getD i 0, dF1s.getD i 0, 0])
          (tref - te)
      let twoFVal := ev ts te (theta 0) (theta 1) (theta 2) Alpha Delta
      let rest := glitchSegLoop ev tref Alpha Delta tb dF0s dF1s count (i + 1) theta
      (twoFVal + rest.1, (ts, te, theta) :: rest.2)

/-- `SemiCoherentGlitchSearch.compute_nglitch_fstat` (lines 308-338).  The
trailing `*args` list is `delta_F0s ++ delta_F1s ++ tglitches` (`3 * nglitch`
entries); the Python slices `args[-n:]`, `args[-3n:-2n]`, `args[-2n:-n]` are
rendered with `drop`/`take` (for `nglitch = 0` the slice `args[-0:]` is the
whole list, hence the guard). -/
noncomputable def compute_nglitch_fstat (ev : ℝ → ℝ → ℝ → ℝ → ℝ → ℝ → ℝ → ℝ)
    (tref tstart tend : ℝ) (nglitch : ℕ) (F0 F1 F2 Alpha Delta : ℝ) (args : List ℝ) :
    ℝ × List (ℝ × ℝ × (Fin 3 → ℝ)) :=
  let tboundaries :=
    [tstart] ++ (if nglitch = 0 then args else args.drop (args.length - nglitch)) ++ [tend]
  let delta_F0s := (0 : ℝ) :: ((args.drop (args.length - 3 * nglitch)).take nglitch)
  let delta_F1s := (0 : ℝ) :: ((args.drop (args.length - 2 * nglitch)).take nglitch)
  glitchSegLoop ev tref Alpha Delta tboundaries delta_F0s delta_F1s (nglitch + 1) 0 ![F0, F1, F2]

/-- The per-segment reference-time vector as claim C1 (spec section 4.2)
describes it: for segment i > 0, shift the previous segment's vector forward
to the glitch epoch that BEGINS segment i (boundary `tboundaries[i]`), add the
jump vector, and shift back to tref.  Stated from the claim's words, to be
compared with the code's loop above. -/
noncomputable def claimSegmentTheta (tref : ℝ) (tb dF0s dF1s : List ℝ) (theta0 : Fin 3 → ℝ) :
    ℕ → (Fin 3 → ℝ)
  | 0 => theta0
  | i + 1 =>
      let tg := tb.getD (i + 1) 0
      shift_coefficients
        (shift_coefficients (claimSegmentTheta tref tb dF0s dF1s theta0 i) (tg - tref)
          + ![dF0s.getD (i + 1) 0, dF1s.getD (i + 1) 0, 0])
        (tref - tg)

/-- C1, code-bug evidence.  Failing input: nglitch = 1, tref = 0, tstart = 0,
tglitch = 1, tend = 2, (F0,F1,F2) = (0,0,0), jump (delta_F0, delta_F1) =
(0,1).  The code hands the evaluator, for segment 1, a vector whose first
component is -4*pi, because it shifted the previous vector to the segment's
END boundary `tboundaries[2] = tend = 2`; the vector described by the claim
(shift to the glitch epoch `tboundaries[1] = 1` that begins segment 1) has
first component -2*pi, and the two differ.  The returned total is the sum of
the per-segment statistics. -/
theorem compute_nglitch_fstat_shifts_to_segment_end :
    ((compute_nglitch_fstat (fun _ _ _ _ _ _ _ => 0) 0 0 2 1 0 0 0 0 0 [0, 1, 1]).2.map
        (fun t => (t.1, t.2.1, t.2.2 0))) = [(0, 1, 0), (1, 2, -(4 * Real.pi))] ∧
    claimSegmentTheta 0 [0, 1, 2] [0, 0] [0, 1] ![0, 0, 0] 1 0 = -(2 * Real.pi) ∧
    (-(4 * Real.pi) : ℝ) ≠ -(2 * Real.pi) ∧
    (compute_nglitch_fstat (fun _ _ f0 _ _ _ _ => f0) 0 0 2 1 0 0 0 0 0 [0, 1, 1]).1
      = 0 + (-(4 * Real.pi) + 0) := by
  refine ⟨?_, ?_, ?_, ?_⟩
  · simp [compute_nglitch_fstat, glitchSegLoop, shift_coefficients, shift_matrix,
      Matrix.mulVec, Matrix.dotProduct, Fin.sum_univ_three, Nat.factorial,
      Matrix.vecHead, Matrix.vecTail] <;>
      norm_num [Fin.coe_ofNat_eq_mod, Fin.ext_iff] <;> try ring
  · simp [claimSegmentTheta, shift_coefficients, shift_matrix,
      Matrix.mulVec, Matrix.dotProduct, Fin.sum_univ_three, Nat.factorial,
      Matrix.vecHead, Matrix.vecTail] <;>
      norm_num [Fin.coe_ofNat_eq_mod, Fin.ext_iff] <;> try ring
  · intro h
    have : Real.pi = 0 := by linarith
    exact Real.pi_ne_zero this
  · simp [compute_nglitch_fstat, glitchSegLoop, shift_coefficients, shift_matrix,
      Matrix.mulVec, Matrix.dotProduct, Fin.sum_univ_three, Nat.factorial,
      Matrix.vecHead, Matrix.vecTail] <;>
      norm_num [Fin.coe_ofNat_eq_mod, Fin.ext_iff] <;> try ring

/-- `SemiCoherentGlitchSearch.compute_glitch_fstat_single` (lines 340-365),
with the evaluator abstract and a trace of the `(start, end)` intervals it is
invoked on. -/
noncomputable def compute_glitch_fstat_single (ev : ℝ → ℝ → ℝ → ℝ → ℝ → ℝ → ℝ → ℝ)
    (tref tstart tend F0 F1 F2 Alpha Delta delta_F0 delta_F1 tglitch : ℝ) :
    ℝ × List (ℝ × ℝ) :=
  let theta : Fin 3 → ℝ := ![F0, F1, F2]
  let delta_theta : Fin 3 → ℝ := ![delta_F0, delta_F1, 0]
  let theta_post_glitch :=
    shift_coefficients (shift_coefficients theta (tglitch - tref) + delta_theta)
      (tref - tglitch)
  let twoFsegA := ev tstart tglitch (theta 0) (theta 1) (theta 2) Alpha Delta
  if tglitch = tend then (twoFsegA, [(tstart, tglitch)])
  else
    let twoFsegB := ev tglitch tend (theta_post_glitch 0) (theta_post_glitch 1)
      (theta_post_glitch 2) Alpha Delta
    (twoFsegA + twoFsegB, [(tstart, tglitch), (tglitch, tend)])

/-- C7: when the glitch epoch equals tend, `compute_glitch_fstat_single`
returns exactly the statistic of the single segment [tstart, tend) with the
pre-glitch vector, and the evaluator is invoked once, on that segment only
(no second, zero-duration evaluation). -/
theorem glitch_fstat_single_tend_short_circuit (ev : ℝ → ℝ → ℝ → ℝ → ℝ → ℝ → ℝ → ℝ)
    (tref tstart tend F0 F1 F2 Alpha Delta delta_F0 delta_F1 tglitch : ℝ)
    (h : tglitch = tend) :
    compute_glitch_fstat_single ev tref tstart tend F0 F1 F2 Alpha Delta delta_F0 delta_F1
        tglitch
      = (ev tstart tend F0 F1 F2 Alpha Delta, [(tstart, tend)]) := by
  subst h
  simp [compute_glitch_fstat_single]

/-- Witness for C7 at a concrete input. -/
theorem glitch_fstat_single_tend_short_circuit_witness :
    compute_glitch_fstat_single (fun a b _ _ _ _ _ => a + b) 0 0 5 1 2 3 4 6 7 8 5
      = ((fun (a b _ _ _ _ _ : ℝ) => a + b) 0 5 1 2 3 4 6, [((0 : ℝ), (5 : ℝ))]) :=
  glitch_fstat_single_tend_short_circuit (fun a b _ _ _ _ _ => a + b) 0 0 5 1 2 3 4 6 7 8 5 rfl

/-! ## Priors (`MCMCSearch.generic_lnprior`, lines 629-677) and the glitch
prior with ordering constraints (`MCMCGlitchSearch.logp`, lines 1001-1011)

A prior dictionary value is either a plain number (parameter held fixed), a
distribution descriptor, or a value of unrecognized type (which the code
rejects); `lognorm` is known to `generate_rv` but not to `generic_lnprior`,
which raises on it.  Log-probabilities are `EReal` (`-np.inf` is the bottom
element); Python exceptions are the `Except.error` branch. -/

inductive DistSpec : Type
  | unif (lower upper : ℝ)
  | norm (loc scale : ℝ)
  | halfnorm (loc scale : ℝ)
  | lognorm (loc scale : ℝ)

inductive PriorVal : Type
  | fixedv (x : ℝ)
  | dist (d : DistSpec)
  | badval

/-- `generic_lnprior` for a scalar input: `unif` gives `-log(b-a)` inside
`(a, b)` and `-inf` outside; `halfnorm` gives `-inf` for `x < 0`; `norm` is a
total formula; any other type raises `ValueError`. -/
noncomputable def generic_lnprior : DistSpec → ℝ → Except String EReal
  | .unif a b, x => if x < b ∧ a < x then .ok (((-Real.log (b - a) : ℝ) : EReal)) else .ok ⊥
  | .halfnorm loc scale, x =>
      if x < 0 then .ok ⊥
      else .ok (((-(0.5 * ((x - loc) ^ 2 / scale ^ 2 +
        Real.log (0.5 * Real.pi * scale ^ 2))) : ℝ) : EReal))
  | .norm loc scale, x =>
      .ok (((-(0.5 * ((x - loc) ^ 2 / scale ^ 2 +
        Real.log (2 * Real.pi * scale ^ 2))) : ℝ) : EReal))
  | .lognorm _ _, _ => .error "Print unrecognise distribution"

/-- The list `H` of `MCMCSearch.logp`: one log-prior per (value, key) pair;
a missing key is a `KeyError`, a non-dict prior entry a `TypeError` (the
`**`-splat of a float fails). -/
noncomputable def lnpriorSum (theta_prior : String → Option PriorVal) :
    List (ℝ × String) → Except String (List EReal)
  | [] => .ok []
  | (p, key) :: rest =>
      match theta_prior key with
      | none => .error "KeyError"
      | some (.fixedv _) => .error "TypeError"
      | some .badval => .error "TypeError"
      | some (.dist d) =>
          match generic_lnprior d p, lnpriorSum theta_prior rest with
          | .ok v, .ok vs => .ok (v :: vs)
          | .error e, _ => .error e
          | _, .error e => .error e

/-- `np.diff`: adjacent differences. -/
def npDiff : List ℝ → List ℝ
  | a :: b :: rest => (b - a) :: npDiff (b :: rest)
  | _ => []

/-- `MCMCGlitchSearch.logp` (lines 1001-1011).  `theta_vals` is a numpy
array in every call path (emcee hands the sampler's walker rows to the
log-prior, and `check_initial_points` iterates the rows of the array built by
`apply_corrections_to_p0`, line 1075), so line 1003's
`ts = [self.tstart] + theta_vals[-self.nglitch:] + [self.tend]` is NOT list
concatenation: `list.__add__(ndarray)` returns `NotImplemented`, dispatching
to `ndarray.__radd__`, which broadcasts.  `ts` is therefore the
`nglitch`-element array with entries `tstart + t_i + tend`.  That array must
equal its sorted self (i.e. be nondecreasing) and every adjacent difference of
it must be at least `dtglitchmin`, else the result is exactly `-inf`
(returned before any prior is evaluated, so no exception can be raised). -/
noncomputable def glitch_logp (nglitch : ℕ) (tstart tend dtglitchmin : ℝ)
    (theta_vals : List ℝ) (theta_prior : String → Option PriorVal)
    (theta_keys : List String) : Except String EReal :=
  if 1 < nglitch then
    if ¬ List.Chain' (· ≤ ·)
        ((theta_vals.drop (theta_vals.length - nglitch)).map
          (fun t => tstart + t + tend)) then .ok ⊥
    else if ∃ d ∈ npDiff
        ((theta_vals.drop (theta_vals.length - nglitch)).map
          (fun t => tstart + t + tend)),
        d < dtglitchmin then .ok ⊥
    else (lnpriorSum theta_prior (theta_vals.zip theta_keys)).map (fun H => H.sum)
  else (lnpriorSum theta_prior (theta_vals.zip theta_keys)).map (fun H => H.sum)

/-- C4: the claim is false of the code.  Because `ts` on line 1003 is the
broadcast sum `[tstart + t1 + tend, tstart + t2 + tend]` rather than the
intended four-point list `[tstart, t1, t2, tend]`, `logp` only ever checks
`t1 <= t2` and `t2 - t1 >= dtglitchmin`; the gaps `t1 - tstart` and
`tend - t2` promised by the `dtglitchmin` docstring (lines 957-959) are never
examined.  At nglitch = 2, (tstart, tend, dtglitchmin) = (0, 10, 1) and
epochs (t1, t2) = (0.2, 5) — which violate the claim's ordering/gap condition,
since t1 - tstart = 0.2 < 1 — the code falls through to the normal prior sum
(here two unit-normal priors on the epochs) and returns a finite value, not
`-inf`. -/
theorem glitch_logp_ignores_boundary_gaps :
    ¬ ((0 : ℝ) < 0.2 ∧ (0.2 : ℝ) < 5 ∧ (5 : ℝ) < 10 ∧
        (1 : ℝ) ≤ 0.2 - 0 ∧ (1 : ℝ) ≤ 5 - 0.2 ∧ (1 : ℝ) ≤ 10 - 5) ∧
    glitch_logp 2 0 10 1 [0.2, 5]
        (fun k => if k = "tglitch" then some (.dist (.norm 0 1)) else none)
        ["tglitch", "tglitch"]
      ≠ .ok ⊥ := by
  constructor
  · rintro ⟨-, -, -, h4, -⟩
    norm_num at h4
  · have hts : ((([0.2, 5] : List ℝ).drop (([0.2, 5] : List ℝ).length - 2)).map
        (fun t => (0 : ℝ) + t + 10)) = [10.2, 15] := by norm_num
    have hch : List.Chain' (· ≤ ·) [(10.2 : ℝ), 15] := by
      simp only [List.chain'_cons, List.chain'_singleton, and_true]
      norm_num
    have hdiff : ¬ ∃ d ∈ npDiff [(10.2 : ℝ), 15], d < (1 : ℝ) := by
      rintro ⟨d, hd, hlt⟩
      have hdval : npDiff [(10.2 : ℝ), 15] = [15 - 10.2] := rfl
      rw [hdval] at hd
      simp only [List.mem_singleton] at hd
      rw [hd] at hlt
      norm_num at hlt
    have hln : lnpriorSum
        (fun k => if k = "tglitch" then some (.dist (.norm 0 1)) else none)
        (([0.2, 5] : List ℝ).zip ["tglitch", "tglitch"])
        = .ok [((-(0.5 * (((0.2 : ℝ) - 0) ^ 2 / 1 ^ 2 +
            Real.log (2 * Real.pi * 1 ^ 2))) : ℝ) : EReal),
          ((-(0.5 * (((5 : ℝ) - 0) ^ 2 / 1 ^ 2 +
            Real.log (2 * Real.pi * 1 ^ 2))) : ℝ) : EReal)] := rfl
    unfold glitch_logp
    rw [if_pos (by norm_num), hts, if_neg (not_not.mpr hch), if_neg hdiff, hln]
    intro hcontra
    simp only [Except.map, List.sum_cons, List.sum_nil, add_zero,
      Except.ok.injEq, ← EReal.coe_add] at hcontra
    exact EReal.coe_ne_bot _ hcontra

/-! ## Parameter packing (`MCMCSearch.unpack_input_theta` lines 452-492,
`MCMCGlitchSearch.unpack_input_theta` lines 1019-1072, constructor insertion
lines 417-420) -/

/-- `lst.pop(lst.index(k))`: remove the first occurrence of `k`, or fail
(`ValueError`) when `k` is absent. -/
def popKey (rem : List String) (k : String) : Option (List String) :=
  if k ∈ rem then some (rem.erase k) else none

/-- `nglitch` repetitions of `popKey`. -/
def popN : ℕ → List String → String → Option (List String)
  | 0, rem, _ => some rem
  | m + 1, rem, k =>
      match popKey rem k with
      | none => none
      | some rem2 => popN m rem2 k

def glitch_keys : List String := ["delta_F0", "delta_F1", "tglitch"]

/-- The popping a single prior entry performs: glitch keys are popped
`nglitch` times, other keys once. -/
def glitchPop (n : ℕ) (gks : List String) (rem : List String) (k : String) :
    Option (List String) :=
  if k ∈ gks then popN n rem k else popKey rem k

/-- The `theta_keys` contribution of one prior entry: a free (distribution)
glitch key is appended `nglitch` times, any other free key once, fixed keys
never. -/
def keyContrib (n : ℕ) (gks : List String) (p : String × PriorVal) : List String :=
  match p.2 with
  | .dist _ => if p.1 ∈ gks then List.replicate n p.1 else [p.1]
  | _ => []

inductive UnpackErr : Type
  | badType (k : String)
  | keyAbsent (k : String)
  | missingKeys (ks : List String)
deriving DecidableEq

/-- The main loop of `unpack_input_theta`: for each prior entry, classify the
value (raising on unrecognized types), extend `theta_keys`, record the fixed
value (0 for free keys), then pop the key from the remaining canonical keys
(raising when absent).  Returns `(theta_keys, remaining, fixed_dict)`. -/
def unpackGo (n : ℕ) (gks : List String) :
    List (String × PriorVal) → List String → List String → List (String × ℝ) →
    Except UnpackErr (List String × List String × List (String × ℝ))
  | [], rem, tks, fd => .ok (tks, rem, fd)
  | (k, v) :: rest, rem, tks, fd =>
      match v with
      | .badval => .error (.badType k)
      | .dist d =>
          match glitchPop n gks rem k with
          | none => .error (.keyAbsent k)
          | some rem2 =>
              unpackGo n gks rest rem2
                (tks ++ (if k ∈ gks then List.replicate n k else [k])) (fd ++ [(k, 0)])
      | .fixedv x =>
          match glitchPop n gks rem k with
          | none => .error (.keyAbsent k)
          | some rem2 => unpackGo n gks rest rem2 tks (fd ++ [(k, x)])

/-! ### Stable argsort (`np.argsort` and the reorder of
`theta_idxs`/`theta_keys` by it) -/

/-- Insert index `i` before the first index whose value is not smaller,
keeping equal-valued earlier indices first (stability). -/
def stableInsert (val : ℕ → ℕ) (i : ℕ) : List ℕ → List ℕ
  | [] => [i]
  | j :: rest => if val j < val i then j :: stableInsert val i rest else i :: j :: rest

/-- `np.argsort` (stable): the permutation of `[0, ..., len-1]` sorting the
value list. -/
def argsortPerm (vals : List ℕ) : List ℕ :=
  (List.range vals.length).foldr (stableInsert (fun i => vals.getD i 0)) []

def applyPermNat (perm : List ℕ) (l : List ℕ) : List ℕ := perm.map (fun i => l.getD i 0)

def applyPermStr (perm : List ℕ) (l : List String) : List String :=
  perm.map (fun i => l.getD i "")

/-- `theta_idxs` after the argsort reorder. -/
def sortIdxVals (v : List ℕ) : List ℕ := applyPermNat (argsortPerm v) v

/-! ### The glitch-index de-collision loop -/

/-- `np.sum(theta_idxs[:-1] == theta_idxs[1:]) > 0`. -/
def hasAdjDup (l : List ℕ) : Bool := (l.zip l.tail).any (fun p => p.1 == p.2)

/-- One pass of `for i, idx in enumerate(theta_idxs): if idx in
theta_idxs[:i]: theta_idxs[i] += 1` — the prefix seen by the membership test
is the already-updated one. -/
def bumpPass : List ℕ → List ℕ → List ℕ
  | acc, [] => acc
  | acc, x :: rest => bumpPass (acc ++ [if x ∈ acc then x + 1 else x]) rest

def decollideFuel : ℕ → List ℕ → List ℕ
  | 0, l => l
  | f + 1, l => if hasAdjDup l then decollideFuel f (bumpPass [] l) else l

/-- The `while` loop of `MCMCGlitchSearch.unpack_input_theta` (lines
1067-1072) iterates until no adjacent duplicates remain; the source gives no
termination argument (the spec flags this as an open question), so the
embedding bounds the iteration count; every theorem below concerns inputs on
which the fixed point is reached well within the bound. -/
def decollide (l : List ℕ) : List ℕ := decollideFuel (l.length * l.length + 1) l

structure SearchLayout : Type where
  theta_keys : List String
  theta_idxs : List ℕ
  fixed_theta : List ℝ

/-- Canonical full-key list of the glitch variant (lines 1019-1023): no
tstart/tend, glitch keys replicated `nglitch` times each. -/
def glitchFullThetaKeys (n : ℕ) : List String :=
  ["F0", "F1", "F2", "Alpha", "Delta"] ++
    (List.replicate n "delta_F0" ++ List.replicate n "delta_F1" ++
      List.replicate n "tglitch")

/-- `MCMCGlitchSearch.unpack_input_theta` (lines 1019-1072): run the loop,
fail naming the leftover keys if any remain, then assemble `fixed_theta`,
`theta_idxs` (positions of the free keys in the full list, argsorted, then
de-collided) and the argsorted `theta_keys`.  (`theta_symbols`, a plotting
cosmetic, is not modelled.) -/
def glitchUnpack (n : ℕ) (prior : List (String × PriorVal)) : Except UnpackErr SearchLayout :=
  match unpackGo n glitch_keys prior (glitchFullThetaKeys n) [] [] with
  | .error e => .error e
  | .ok (tks, rem, fd) =>
      if rem.isEmpty then
        let full := glitchFullThetaKeys n
        let tidx := tks.map (fun k => full.indexOf k)
        let perm := argsortPerm tidx
        .ok { theta_keys := applyPermStr perm tks
              theta_idxs := decollide (applyPermNat perm tidx)
              fixed_theta := full.map (fun k => ((fd.lookup k).getD 0)) }
      else .error (.missingKeys rem)

/-- Canonical full-key list of the non-glitch variant (lines 452-457). -/
def mcmcFullThetaKeys (binary : Bool) : List String :=
  ["tstart", "tend", "F0", "F1", "F2", "Alpha", "Delta"] ++
    (if binary then ["asini", "period", "ecc", "tp", "argp"] else [])

/-- `MCMCSearch.unpack_input_theta` (lines 452-492): the same loop with no
glitch keys and no de-collision pass. -/
def plainUnpack (binary : Bool) (prior : List (String × PriorVal)) :
    Except UnpackErr SearchLayout :=
  match unpackGo 0 [] prior (mcmcFullThetaKeys binary) [] [] with
  | .error e => .error e
  | .ok (tks, rem, fd) =>
      if rem.isEmpty then
        let full := mcmcFullThetaKeys binary
        let tidx := tks.map (fun k => full.indexOf k)
        let perm := argsortPerm tidx
        .ok { theta_keys := applyPermStr perm tks
              theta_idxs := applyPermNat perm tidx
              fixed_theta := full.map (fun k => ((fd.lookup k).getD 0)) }
      else .error (.missingKeys rem)

/-- Python dict assignment `d[k] = v`: replace the entry in place (keeping its
position) if the key exists, else append a new entry. -/
def dictSet : List (String × PriorVal) → String → PriorVal → List (String × PriorVal)
  | [], k, v => [(k, v)]
  | p :: rest, k, v => if p.1 = k then (k, v) :: rest else p :: dictSet rest k v

/-- `MCMCSearch.__init__` lines 418-419: the caller-supplied `theta_prior`
dict is mutated in place, binding 'tstart' and 'tend' to the constructor
arguments before `unpack_input_theta` runs (modelled functionally: the
constructor works on the returned dict). -/
def mcmcInitPrior (prior : List (String × PriorVal)) (tstart tend : ℝ) :
    List (String × PriorVal) :=
  dictSet (dictSet prior "tstart" (.fixedv tstart)) "tend" (.fixedv tend)

/-! ### Multiset bookkeeping for the popping loop -/

/-- The multiset of canonical-key copies a prior consumes: `nglitch` copies
per glitch key, one per other key. -/
def expandedKeys (n : ℕ) (gks : List String) (prior : List (String × PriorVal)) :
    Multiset String :=
  (prior.map (fun p => Multiset.replicate (if p.1 ∈ gks then n else 1) p.1)).sum

theorem popKey_some {rem rem2 : List String} {k : String}
    (h : popKey rem k = some rem2) :
    k ∈ rem ∧ (rem2 : Multiset String) = (rem : Multiset String).erase k := by
  unfold popKey at h
  split_ifs at h with hm
  exact ⟨hm, by simp [← Option.some_inj.mp h]⟩

theorem popKey_isSome_iff {rem : List String} {k : String} :
    (popKey rem k).isSome ↔ k ∈ rem := by
  unfold popKey
  split_ifs with hm <;> simp [hm]

theorem popN_spec (m : ℕ) : ∀ (rem : List String) (k : String),
    ((popN m rem k).isSome ↔ m ≤ (rem : Multiset String).count k) ∧
    (∀ rem2, popN m rem k = some rem2 →
      (rem2 : Multiset String) = (rem : Multiset String) - Multiset.replicate m k) := by
  induction m with
  | zero => intro rem k; simp [popN]
  | succ m ih =>
      intro rem k
      constructor
      · unfold popN
        cases hpk : popKey rem k with
        | none =>
            simp only [Option.isSome_none, Bool.false_eq_true, false_iff]
            intro hle
            have hk : k ∈ rem := by
              have : 0 < (rem : Multiset String).count k := by omega
              simpa [Multiset.count_pos] using this
            have := popKey_isSome_iff.mpr hk
            rw [hpk] at this
            simp at this
        | some rem2 =>
            obtain ⟨hk, hrem2⟩ := popKey_some hpk
            have hcount : (rem2 : Multiset String).count k
                = (rem : Multiset String).count k - 1 := by
              rw [hrem2, Multiset.count_erase_self]
            rw [(ih rem2 k).1, hcount]
            have hpos : 0 < (rem : Multiset String).count k := by
              simpa [Multiset.count_pos] using hk
            omega
      · intro rem2 h
        unfold popN at h
        cases hpk : popKey rem k with
        | none => rw [hpk] at h; simp at h
        | some rem1 =>
            rw [hpk] at h
            obtain ⟨hk, hrem1⟩ := popKey_some hpk
            have hres := (ih rem1 k).2 rem2 h
            rw [hres, hrem1, ← Multiset.sub_singleton, tsub_tsub,
              Multiset.replicate_succ, Multiset.singleton_add]

theorem glitchPop_eq_popN (n : ℕ) (gks rem : List String) (k : String) :
    glitchPop n gks rem k = popN (if k ∈ gks then n else 1) rem k := by
  unfold glitchPop
  split_ifs with h
  · rfl
  · cases hpk : popKey rem k <;> simp [popN, hpk]

theorem expandedKeys_nil (n : ℕ) (gks : List String) : expandedKeys n gks [] = 0 := rfl

theorem expandedKeys_cons (n : ℕ) (gks : List String) (p : String × PriorVal)
    (rest : List (String × PriorVal)) :
    expandedKeys n gks (p :: rest)
      = Multiset.replicate (if p.1 ∈ gks then n else 1) p.1 + expandedKeys n gks rest := by
  simp [expandedKeys]

/-- Behaviour of the unpack loop: it succeeds exactly when the multiset of
canonical-key copies the prior consumes fits in the remaining list, in which
case `theta_keys` is extended by each entry's contribution in order and the
remaining list shrinks by the consumed multiset. -/
theorem unpackGo_spec (n : ℕ) (gks : List String) :
    ∀ (prior : List (String × PriorVal)) (rem tks : List String) (fd : List (String × ℝ)),
    (∀ p ∈ prior, p.2 ≠ PriorVal.badval) →
    ((∃ out, unpackGo n gks prior rem tks fd = .ok out) ↔
        expandedKeys n gks prior ≤ (rem : Multiset String)) ∧
    (∀ tks2 rem2 fd2, unpackGo n gks prior rem tks fd = .ok (tks2, rem2, fd2) →
        tks2 = tks ++ prior.bind (keyContrib n gks) ∧
        (rem2 : Multiset String) = (rem : Multiset String) - expandedKeys n gks prior) := by
  intro prior
  induction prior with
  | nil =>
      intro rem tks fd _
      refine ⟨by simp [unpackGo, expandedKeys], ?_⟩
      intro tks2 rem2 fd2 h
      simp only [unpackGo, Except.ok.injEq, Prod.mk.injEq] at h
      obtain ⟨h1, h2, _⟩ := h
      simp [← h1, ← h2, expandedKeys]
  | cons p rest ih =>
      intro rem tks fd hwt
      obtain ⟨k, v⟩ := p
      have hwtr : ∀ q ∈ rest, q.2 ≠ PriorVal.badval := fun q hq => hwt q (List.mem_cons_of_mem _ hq)
      have hwtp : v ≠ PriorVal.badval := hwt (k, v) (List.mem_cons_self _ _)
      have hcons : expandedKeys n gks ((k, v) :: rest)
          = Multiset.replicate (if k ∈ gks then n else 1) k + expandedKeys n gks rest :=
        expandedKeys_cons n gks (k, v) rest
      cases v with
      | badval => exact absurd rfl hwtp
      | dist d =>
          cases hgp : glitchPop n gks rem k with
          | none =>
              have hnocnt : ¬ ((if k ∈ gks then n else 1) ≤ Multiset.count k (rem : Multiset String)) := by
                intro hle
                have := (popN_spec (if k ∈ gks then n else 1) rem k).1.mpr hle
                rw [← glitchPop_eq_popN, hgp] at this
                simp at this
              constructor
              · constructor
                · rintro ⟨out, hout⟩
                  simp only [unpackGo, hgp] at hout
                  exact Except.noConfusion hout
                · intro hle
                  exfalso
                  apply hnocnt
                  rw [Multiset.le_count_iff_replicate_le]
                  calc Multiset.replicate (if k ∈ gks then n else 1) k
                      ≤ expandedKeys n gks ((k, PriorVal.dist d) :: rest) := by
                        rw [hcons]; exact Multiset.le_add_right _ _
                    _ ≤ (rem : Multiset String) := hle
              · intro tks2 rem2 fd2 hout
                simp only [unpackGo, hgp] at hout
                exact Except.noConfusion hout
          | some rem1 =>
              have hpn : popN (if k ∈ gks then n else 1) rem k = some rem1 := by
                rw [← glitchPop_eq_popN, hgp]
              have hcnt : (if k ∈ gks then n else 1) ≤ Multiset.count k (rem : Multiset String) := by
                have : (popN (if k ∈ gks then n else 1) rem k).isSome := by rw [hpn]; rfl
                exact (popN_spec _ rem k).1.mp this
              have hrepl : Multiset.replicate (if k ∈ gks then n else 1) k
                  ≤ (rem : Multiset String) := Multiset.le_count_iff_replicate_le.mp hcnt
              have hrem1 : (rem1 : Multiset String)
                  = (rem : Multiset String) - Multiset.replicate (if k ∈ gks then n else 1) k :=
                (popN_spec _ rem k).2 rem1 hpn
              have ihh := ih rem1 (tks ++ (if k ∈ gks then List.replicate n k else [k])) (fd ++ [(k, 0)]) hwtr
              constructor
              · have hstep : (∃ out, unpackGo n gks ((k, .dist d) :: rest) rem tks fd = .ok out)
                    ↔ (∃ out, unpackGo n gks rest rem1
                        (tks ++ (if k ∈ gks then List.replicate n k else [k])) (fd ++ [(k, 0)]) = .ok out) := by
                  simp only [unpackGo, hgp]
                rw [hstep, ihh.1, hrem1, hcons]
                rw [le_tsub_iff_left hrepl]
              · intro tks2 rem2 fd2 hout
                simp only [unpackGo, hgp] at hout
                obtain ⟨htks, hrem⟩ := ihh.2 tks2 rem2 fd2 hout
                constructor
                · rw [htks, List.append_assoc]
                  congr 1
                  try simp [keyContrib]
                · rw [hrem, hrem1, tsub_tsub, hcons]
      | fixedv x =>
          cases hgp : glitchPop n gks rem k with
          | none =>
              have hnocnt : ¬ ((if k ∈ gks then n else 1) ≤ Multiset.count k (rem : Multiset String)) := by
                intro hle
                have := (popN_spec (if k ∈ gks then n else 1) rem k).1.mpr hle
                rw [← glitchPop_eq_popN, hgp] at this
                simp at this
              constructor
              · constructor
                · rintro ⟨out, hout⟩
                  simp only [unpackGo, hgp] at hout
                  exact Except.noConfusion hout
                · intro hle
                  exfalso
                  apply hnocnt
                  rw [Multiset.le_count_iff_replicate_le]
                  calc Multiset.replicate (if k ∈ gks then n else 1) k
                      ≤ expandedKeys n gks ((k, PriorVal.fixedv x) :: rest) := by
                        rw [hcons]; exact Multiset.le_add_right _ _
                    _ ≤ (rem : Multiset String) := hle
              · intro tks2 rem2 fd2 hout
                simp only [unpackGo, hgp] at hout
                exact Except.noConfusion hout
          | some rem1 =>
              have hpn : popN (if k ∈ gks then n else 1) rem k = some rem1 := by
                rw [← glitchPop_eq_popN, hgp]
              have hcnt : (if k ∈ gks then n else 1) ≤ Multiset.count k (rem : Multiset String) := by
                have : (popN (if k ∈ gks then n else 1) rem k).isSome := by rw [hpn]; rfl
                exact (popN_spec _ rem k).1.mp this
              have hrepl : Multiset.replicate (if k ∈ gks then n else 1) k
                  ≤ (rem : Multiset String) := Multiset.le_count_iff_replicate_le.mp hcnt
              have hrem1 : (rem1 : Multiset String)
                  = (rem : Multiset String) - Multiset.replicate (if k ∈ gks then n else 1) k :=
                (popN_spec _ rem k).2 rem1 hpn
              have ihh := ih rem1 tks (fd ++ [(k, x)]) hwtr
              constructor
              · have hstep : (∃ out, unpackGo n gks ((k, .fixedv x) :: rest) rem tks fd = .ok out)
                    ↔ (∃ out, unpackGo n gks rest rem1 tks (fd ++ [(k, x)]) = .ok out) := by
                  simp only [unpackGo, hgp]
                rw [hstep, ihh.1, hrem1, hcons]
                rw [le_tsub_iff_left hrepl]
              · intro tks2 rem2 fd2 hout
                simp only [unpackGo, hgp] at hout
                obtain ⟨htks, hrem⟩ := ihh.2 tks2 rem2 fd2 hout
                constructor
                · rw [htks]
                  congr 1
                  try simp [keyContrib]
                · rw [hrem, hrem1, tsub_tsub, hcons]

theorem unpackGo_no_missing (n : ℕ) (gks : List String) :
    ∀ (prior : List (String × PriorVal)) (rem tks : List String) (fd : List (String × ℝ))
    (ks : List String), unpackGo n gks prior rem tks fd ≠ .error (.missingKeys ks) := by
  intro prior
  induction prior with
  | nil => intro rem tks fd ks h; exact Except.noConfusion h
  | cons p rest ih =>
      intro rem tks fd ks h
      obtain ⟨k, v⟩ := p
      cases v with
      | badval =>
          simp only [unpackGo] at h
          injection h with h2
          exact UnpackErr.noConfusion h2
      | dist d =>
          simp only [unpackGo] at h
          cases hgp : glitchPop n gks rem k with
          | none =>
              rw [hgp] at h
              injection h with h2
              exact UnpackErr.noConfusion h2
          | some rem1 =>
              rw [hgp] at h
              exact ih rem1 _ _ ks h
      | fixedv x =>
          simp only [unpackGo] at h
          cases hgp : glitchPop n gks rem k with
          | none =>
              rw [hgp] at h
              injection h with h2
              exact UnpackErr.noConfusion h2
          | some rem1 =>
              rw [hgp] at h
              exact ih rem1 _ _ ks h

theorem glitchUnpack_ok_iff (n : ℕ) (prior : List (String × PriorVal))
    (hwt : ∀ p ∈ prior, p.2 ≠ PriorVal.badval) :
    (∃ l, glitchUnpack n prior = .ok l) ↔
      expandedKeys n glitch_keys prior = (glitchFullThetaKeys n : Multiset String) := by
  have hspec := unpackGo_spec n glitch_keys prior (glitchFullThetaKeys n) [] [] hwt
  unfold glitchUnpack
  cases hgo : unpackGo n glitch_keys prior (glitchFullThetaKeys n) [] [] with
  | error e =>
      constructor
      · rintro ⟨l, hl⟩
        exact Except.noConfusion hl
      · intro heq
        obtain ⟨out, hout⟩ := hspec.1.mpr (le_of_eq heq)
        rw [hgo] at hout
        exact Except.noConfusion hout
  | ok out =>
      obtain ⟨tks, rem, fd⟩ := out
      have hle : expandedKeys n glitch_keys prior ≤ (glitchFullThetaKeys n : Multiset String) :=
        hspec.1.mp ⟨_, hgo⟩
      have hrem := (hspec.2 tks rem fd hgo).2
      by_cases hempty : rem.isEmpty = true
      · simp only [hempty, if_true]
        constructor
        · intro _
          have h0 : (rem : Multiset String) = 0 := by
            rw [List.isEmpty_iff] at hempty
            simp [hempty]
          rw [hrem] at h0
          exact le_antisymm hle (tsub_eq_zero_iff_le.mp h0)
        · intro _
          exact ⟨_, rfl⟩
      · simp only [hempty, if_false]
        constructor
        · rintro ⟨l, hl⟩
          exact Except.noConfusion hl
        · intro heq
          exfalso
          apply hempty
          rw [List.isEmpty_iff]
          have h0 : (rem : Multiset String) = 0 := by
            rw [hrem, heq]
            exact tsub_self _
          simpa using h0

theorem glitchUnpack_missing (n : ℕ) (prior : List (String × PriorVal)) (ks : List String)
    (hwt : ∀ p ∈ prior, p.2 ≠ PriorVal.badval)
    (h : glitchUnpack n prior = .error (.missingKeys ks)) :
    (ks : Multiset String)
      = (glitchFullThetaKeys n : Multiset String) - expandedKeys n glitch_keys prior ∧
    ks ≠ [] := by
  have hspec := unpackGo_spec n glitch_keys prior (glitchFullThetaKeys n) [] [] hwt
  unfold glitchUnpack at h
  cases hgo : unpackGo n glitch_keys prior (glitchFullThetaKeys n) [] [] with
  | error e =>
      rw [hgo] at h
      injection h with h2
      rw [h2] at hgo
      exact absurd hgo (unpackGo_no_missing n glitch_keys prior _ _ _ ks)
  | ok out =>
      obtain ⟨tks, rem, fd⟩ := out
      rw [hgo] at h
      dsimp only at h
      have hrem := (hspec.2 tks rem fd hgo).2
      by_cases hempty : rem.isEmpty = true
      · rw [if_pos hempty] at h
        exact Except.noConfusion h
      · rw [if_neg hempty] at h
        injection h with h2
        injection h2 with h3
        constructor
        · rw [← h3, hrem]
        · intro hnil
          exact hempty (by rw [← h3] at hnil; simp [hnil])

theorem expandedKeys_no_gks (n : ℕ) (prior : List (String × PriorVal)) :
    expandedKeys n [] prior = ((prior.map Prod.fst : List String) : Multiset String) := by
  induction prior with
  | nil => rfl
  | cons p rest ih =>
      rw [expandedKeys_cons, ih]
      simp

theorem plainUnpack_ok_iff (binary : Bool) (prior : List (String × PriorVal))
    (hwt : ∀ p ∈ prior, p.2 ≠ PriorVal.badval) :
    (∃ l, plainUnpack binary prior = .ok l) ↔
      ((prior.map Prod.fst : List String) : Multiset String)
        = (mcmcFullThetaKeys binary : Multiset String) := by
  have hspec := unpackGo_spec 0 [] prior (mcmcFullThetaKeys binary) [] [] hwt
  rw [← expandedKeys_no_gks 0 prior]
  unfold plainUnpack
  cases hgo : unpackGo 0 [] prior (mcmcFullThetaKeys binary) [] [] with
  | error e =>
      constructor
      · rintro ⟨l, hl⟩
        exact Except.noConfusion hl
      · intro heq
        obtain ⟨out, hout⟩ := hspec.1.mpr (le_of_eq heq)
        rw [hgo] at hout
        exact Except.noConfusion hout
  | ok out =>
      obtain ⟨tks, rem, fd⟩ := out
      have hle : expandedKeys 0 [] prior ≤ (mcmcFullThetaKeys binary : Multiset String) :=
        hspec.1.mp ⟨_, hgo⟩
      have hrem := (hspec.2 tks rem fd hgo).2
      by_cases hempty : rem.isEmpty = true
      · simp only [hempty, if_true]
        constructor
        · intro _
          have h0 : (rem : Multiset String) = 0 := by
            rw [List.isEmpty_iff] at hempty
            simp [hempty]
          rw [hrem] at h0
          exact le_antisymm hle (tsub_eq_zero_iff_le.mp h0)
        · intro _
          exact ⟨_, rfl⟩
      · simp only [hempty, if_false]
        constructor
        · rintro ⟨l, hl⟩
          exact Except.noConfusion hl
        · intro heq
          exfalso
          apply hempty
          rw [List.isEmpty_iff]
          have h0 : (rem : Multiset String) = 0 := by
            rw [hrem, heq]
            exact tsub_self _
          simpa using h0

theorem plainUnpack_missing (binary : Bool) (prior : List (String × PriorVal))
    (ks : List String) (hwt : ∀ p ∈ prior, p.2 ≠ PriorVal.badval)
    (h : plainUnpack binary prior = .error (.missingKeys ks)) :
    (ks : Multiset String)
      = (mcmcFullThetaKeys binary : Multiset String)
        - ((prior.map Prod.fst : List String) : Multiset String) ∧
    ks ≠ [] := by
  have hspec := unpackGo_spec 0 [] prior (mcmcFullThetaKeys binary) [] [] hwt
  rw [← expandedKeys_no_gks 0 prior]
  unfold plainUnpack at h
  cases hgo : unpackGo 0 [] prior (mcmcFullThetaKeys binary) [] [] with
  | error e =>
      rw [hgo] at h
      injection h with h2
      rw [h2] at hgo
      exact absurd hgo (unpackGo_no_missing 0 [] prior _ _ _ ks)
  | ok out =>
      obtain ⟨tks, rem, fd⟩ := out
      rw [hgo] at h
      dsimp only at h
      have hrem := (hspec.2 tks rem fd hgo).2
      by_cases hempty : rem.isEmpty = true
      · rw [if_pos hempty] at h
        exact Except.noConfusion h
      · rw [if_neg hempty] at h
        injection h with h2
        injection h2 with h3
        constructor
        · rw [← h3, hrem]
        · intro hnil
          exact hempty (by rw [← h3] at hnil; simp [hnil])

theorem unpackGo_ok_no_badval (n : ℕ) (gks : List String) :
    ∀ (prior : List (String × PriorVal)) (rem tks : List String) (fd : List (String × ℝ))
      (out : List String × List String × List (String × ℝ)),
    unpackGo n gks prior rem tks fd = .ok out → ∀ p ∈ prior, p.2 ≠ PriorVal.badval := by
  intro prior
  induction prior with
  | nil =>
      intro rem tks fd out _ p hp
      exact absurd hp (List.not_mem_nil p)
  | cons q rest ih =>
      intro rem tks fd out h p hp
      obtain ⟨k, v⟩ := q
      cases v with
      | badval =>
          simp only [unpackGo] at h
          exact Except.noConfusion h
      | dist d =>
          simp only [unpackGo] at h
          cases hgp : glitchPop n gks rem k with
          | none =>
              rw [hgp] at h
              exact Except.noConfusion h
          | some rem1 =>
              rw [hgp] at h
              rcases List.mem_cons.mp hp with rfl | hpr
              · simp
              · exact ih rem1 _ _ out h p hpr
      | fixedv x =>
          simp only [unpackGo] at h
          cases hgp : glitchPop n gks rem k with
          | none =>
              rw [hgp] at h
              exact Except.noConfusion h
          | some rem1 =>
              rw [hgp] at h
              rcases List.mem_cons.mp hp with rfl | hpr
              · simp
              · exact ih rem1 _ _ out h p hpr

/-! ### Correctness of the stable argsort embedding -/

theorem stableInsert_perm (val : ℕ → ℕ) (i : ℕ) :
    ∀ l : List ℕ, (stableInsert val i l).Perm (i :: l) := by
  intro l
  induction l with
  | nil => exact List.Perm.refl _
  | cons j rest ih =>
      unfold stableInsert
      split_ifs with h
      · exact (ih.cons j).trans (List.Perm.swap i j rest)
      · exact List.Perm.refl _

theorem stableInsert_sorted (val : ℕ → ℕ) (i : ℕ) :
    ∀ l : List ℕ, l.Sorted (fun a b => val a ≤ val b) →
      (stableInsert val i l).Sorted (fun a b => val a ≤ val b) := by
  intro l
  induction l with
  | nil => intro _; simp [stableInsert]
  | cons j rest ih =>
      intro hs
      rw [List.sorted_cons] at hs
      obtain ⟨hj, hrest⟩ := hs
      unfold stableInsert
      split_ifs with h
      · rw [List.sorted_cons]
        refine ⟨?_, ih hrest⟩
        intro b hb
        have hb2 := (stableInsert_perm val i rest).mem_iff.mp hb
        rcases List.mem_cons.mp hb2 with rfl | hbr
        · exact le_of_lt h
        · exact hj b hbr
      · rw [List.sorted_cons]
        refine ⟨?_, ?_⟩
        · intro b hb
          rcases List.mem_cons.mp hb with rfl | hbr
          · exact le_of_not_lt h
          · exact le_trans (le_of_not_lt h) (hj b hbr)
        · rw [List.sorted_cons]
          exact ⟨hj, hrest⟩

theorem argsortPerm_perm (vals : List ℕ) :
    (argsortPerm vals).Perm (List.range vals.length) := by
  unfold argsortPerm
  generalize List.range vals.length = xs
  induction xs with
  | nil => exact List.Perm.refl _
  | cons x rest ih =>
      exact (stableInsert_perm _ x _).trans (ih.cons x)

theorem argsortPerm_sorted (vals : List ℕ) :
    (argsortPerm vals).Sorted (fun a b => vals.getD a 0 ≤ vals.getD b 0) := by
  unfold argsortPerm
  generalize List.range vals.length = xs
  induction xs with
  | nil => simp
  | cons x rest ih => exact stableInsert_sorted _ _ _ ih

theorem map_getD_range (l : List ℕ) :
    (List.range l.length).map (fun i => l.getD i 0) = l := by
  apply List.ext_getElem
  · simp
  · intro i h1 h2
    simp only [List.getElem_map, List.getElem_range]
    rw [List.getD_eq_getElem]

theorem sortIdxVals_perm (v : List ℕ) : (sortIdxVals v).Perm v := by
  unfold sortIdxVals applyPermNat
  have h1 := (argsortPerm_perm v).map (fun i => v.getD i 0)
  rw [map_getD_range] at h1
  exact h1

theorem sortIdxVals_sorted (v : List ℕ) : (sortIdxVals v).Sorted (· ≤ ·) := by
  unfold sortIdxVals applyPermNat
  exact List.Pairwise.map _ (fun _ _ h => h) (argsortPerm_sorted v)

theorem sortIdxVals_eq_of_perm {v w : List ℕ} (h : v.Perm w) :
    sortIdxVals v = sortIdxVals w :=
  List.eq_of_perm_of_sorted
    ((sortIdxVals_perm v).trans (h.trans (sortIdxVals_perm w).symm))
    (sortIdxVals_sorted v) (sortIdxVals_sorted w)

/-! ### C8: index de-collision -/

/-- The free/fixed shape of a prior entry: its key and whether its value is a
distribution descriptor. -/
def tagOf (p : String × PriorVal) : String × Bool :=
  (p.1, match p.2 with | .dist _ => true | _ => false)

def tagContrib (n : ℕ) (gks : List String) (t : String × Bool) : List String :=
  if t.2 then (if t.1 ∈ gks then List.replicate n t.1 else [t.1]) else []

theorem keyContrib_eq_tag (n : ℕ) (gks : List String) (p : String × PriorVal) :
    keyContrib n gks p = tagContrib n gks (tagOf p) := by
  obtain ⟨k, v⟩ := p
  cases v <;> rfl

theorem bind_keyContrib_eq (n : ℕ) (gks : List String) (prior : List (String × PriorVal)) :
    prior.bind (keyContrib n gks) = (prior.map tagOf).bind (tagContrib n gks) := by
  induction prior with
  | nil => rfl
  | cons p rest ih => simp [keyContrib_eq_tag, ih]

/-- The `theta_idxs` entries a single prior entry contributes (positions in
the glitch full-key list of each `theta_keys` copy). -/
def tidxOf (n : ℕ) (t : String × Bool) : List ℕ :=
  (tagContrib n glitch_keys t).map (fun k => (glitchFullThetaKeys n).indexOf k)

/-- Boolean strict-increase check (the `Decidable` instance of `Chain'` is
not kernel-reducible, so the decidable computations below go through this
function). -/
def strictIncb : List ℕ → Bool
  | a :: b :: rest => decide (a < b) && strictIncb (b :: rest)
  | _ => true

theorem strictIncb_iff : ∀ l : List ℕ, strictIncb l = true ↔ l.Chain' (· < ·)
  | [] => by simp [strictIncb]
  | [a] => by simp [strictIncb]
  | a :: b :: rest => by
      rw [List.chain'_cons, ← strictIncb_iff (b :: rest)]
      simp [strictIncb]

set_option maxHeartbeats 2000000 in
/-- C8: for nglitch = 2 with both tglitch instances free (the prior's
key/shape multiset is the canonical one, with tglitch a distribution), a
successful `unpack_input_theta` produces strictly increasing, duplicate-free
`theta_idxs` whose two tglitch entries — the final two, since 9 is the
largest position in the full-key list — are the distinct increasing pair
(9, 10). -/
theorem glitch_theta_idxs_decollide
    (b0 b1 b2 b3 b4 bd0 bd1 : Bool) (prior : List (String × PriorVal)) (l : SearchLayout)
    (hperm : (prior.map tagOf).Perm
      [("F0", b0), ("F1", b1), ("F2", b2), ("Alpha", b3), ("Delta", b4),
        ("delta_F0", bd0), ("delta_F1", bd1), ("tglitch", true)])
    (hok : glitchUnpack 2 prior = .ok l) :
    l.theta_idxs.Chain' (· < ·) ∧
      l.theta_idxs.drop (l.theta_idxs.length - 2) = [9, 10] := by
  unfold glitchUnpack at hok
  cases hgo : unpackGo 2 glitch_keys prior (glitchFullThetaKeys 2) [] [] with
  | error e =>
      rw [hgo] at hok
      exact Except.noConfusion hok
  | ok out =>
      obtain ⟨tks, rem, fd⟩ := out
      rw [hgo] at hok
      dsimp only at hok
      by_cases hempty : rem.isEmpty = true
      · rw [if_pos hempty] at hok
        injection hok with hl
        have hwt := unpackGo_ok_no_badval 2 glitch_keys prior _ _ _ _ hgo
        have htks : tks = prior.bind (keyContrib 2 glitch_keys) := by
          have hsp := (unpackGo_spec 2 glitch_keys prior (glitchFullThetaKeys 2) [] [] hwt).2
            tks rem fd hgo
          simpa using hsp.1
        have hidx : l.theta_idxs
            = decollide (sortIdxVals
                ((tks.map (fun k => (glitchFullThetaKeys 2).indexOf k)))) := by
          rw [← hl]
          rfl
        have hperm2 : (tks.map (fun k => (glitchFullThetaKeys 2).indexOf k)).Perm
            (([("F0", b0), ("F1", b1), ("F2", b2), ("Alpha", b3), ("Delta", b4),
              ("delta_F0", bd0), ("delta_F1", bd1), ("tglitch", true)]).bind (tidxOf 2)) := by
          rw [htks, bind_keyContrib_eq, List.map_flatMap]
          exact hperm.flatMap_right (tidxOf 2)
        rw [hidx, sortIdxVals_eq_of_perm hperm2]
        have hfinal : ∀ (c0 c1 c2 c3 c4 cd0 cd1 : Bool),
            strictIncb (decollide (sortIdxVals
              (([("F0", c0), ("F1", c1), ("F2", c2), ("Alpha", c3), ("Delta", c4),
                ("delta_F0", cd0), ("delta_F1", cd1), ("tglitch", true)]).bind
                  (tidxOf 2)))) = true ∧
            (decollide (sortIdxVals
              (([("F0", c0), ("F1", c1), ("F2", c2), ("Alpha", c3), ("Delta", c4),
                ("delta_F0", cd0), ("delta_F1", cd1), ("tglitch", true)]).bind
                  (tidxOf 2)))).drop
              ((decollide (sortIdxVals
                (([("F0", c0), ("F1", c1), ("F2", c2), ("Alpha", c3), ("Delta", c4),
                  ("delta_F0", cd0), ("delta_F1", cd1), ("tglitch", true)]).bind
                    (tidxOf 2)))).length - 2) = [9, 10] := by decide
        exact ⟨(strictIncb_iff _).mp (hfinal b0 b1 b2 b3 b4 bd0 bd1).1,
          (hfinal b0 b1 b2 b3 b4 bd0 bd1).2⟩
      · rw [if_neg hempty] at hok
        exact Except.noConfusion hok

/-- Witness for C8: the canonical all-free prior for two glitches. -/
theorem glitch_theta_idxs_decollide_witness :
    ([0, 1, 2, 3, 4, 5, 6, 7, 8, 9, 10] : List ℕ).Chain' (· < ·) ∧
      ([0, 1, 2, 3, 4, 5, 6, 7, 8, 9, 10] : List ℕ).drop
        (([0, 1, 2, 3, 4, 5, 6, 7, 8, 9, 10] : List ℕ).length - 2) = [9, 10] :=
  glitch_theta_idxs_decollide true true true true true true true
    [("F0", .dist (.unif 0 1)), ("F1", .dist (.unif 0 1)), ("F2", .dist (.unif 0 1)),
      ("Alpha", .dist (.unif 0 1)), ("Delta", .dist (.unif 0 1)),
      ("delta_F0", .dist (.unif 0 1)), ("delta_F1", .dist (.unif 0 1)),
      ("tglitch", .dist (.unif 0 1))]
    { theta_keys := ["F0", "F1", "F2", "Alpha", "Delta", "delta_F0", "delta_F0",
        "delta_F1", "delta_F1", "tglitch", "tglitch"]
      theta_idxs := [0, 1, 2, 3, 4, 5, 6, 7, 8, 9, 10]
      fixed_theta := [0, 0, 0, 0, 0, 0, 0, 0, 0, 0, 0] }
    (by decide) rfl

/-- C5: `unpack_input_theta` raises a configuration error exactly when the
glitch-expanded key multiset of the supplied prior differs from the canonical
full-key list (for the glitch variant with any nglitch, and for the plain
variant with or without binary keys); when keys are missing, the raised error
carries exactly the leftover canonical keys; and in particular the non-glitch,
non-binary example supplying F0, F1, Alpha, Delta (after the constructor
inserts tstart and tend) fails naming F2. -/
theorem unpack_completeness :
    (∀ (n : ℕ) (prior : List (String × PriorVal)),
      (∀ p ∈ prior, p.2 ≠ PriorVal.badval) →
      ((∃ l, glitchUnpack n prior = .ok l) ↔
        expandedKeys n glitch_keys prior = (glitchFullThetaKeys n : Multiset String))) ∧
    (∀ (binary : Bool) (prior : List (String × PriorVal)),
      (∀ p ∈ prior, p.2 ≠ PriorVal.badval) →
      ((∃ l, plainUnpack binary prior = .ok l) ↔
        ((prior.map Prod.fst : List String) : Multiset String)
          = (mcmcFullThetaKeys binary : Multiset String))) ∧
    (∀ (n : ℕ) (prior : List (String × PriorVal)) (ks : List String),
      (∀ p ∈ prior, p.2 ≠ PriorVal.badval) →
      glitchUnpack n prior = .error (.missingKeys ks) →
      (ks : Multiset String)
        = (glitchFullThetaKeys n : Multiset String) - expandedKeys n glitch_keys prior ∧
      ks ≠ []) ∧
    (∀ (binary : Bool) (prior : List (String × PriorVal)) (ks : List String),
      (∀ p ∈ prior, p.2 ≠ PriorVal.badval) →
      plainUnpack binary prior = .error (.missingKeys ks) →
      (ks : Multiset String)
        = (mcmcFullThetaKeys binary : Multiset String)
          - ((prior.map Prod.fst : List String) : Multiset String) ∧
      ks ≠ []) ∧
    plainUnpack false (mcmcInitPrior
        [("F0", .fixedv 10), ("F1", .fixedv 0), ("Alpha", .fixedv 0), ("Delta", .fixedv 0)]
        700000000 800000000)
      = .error (.missingKeys ["F2"]) :=
  ⟨glitchUnpack_ok_iff, plainUnpack_ok_iff, glitchUnpack_missing, plainUnpack_missing, rfl⟩

/-- Witness for C5: a prior holding only a fixed F0 (with nglitch = 0) fails,
naming the four leftover canonical keys. -/
theorem unpack_completeness_witness :
    ((["F1", "F2", "Alpha", "Delta"] : List String) : Multiset String)
      = (glitchFullThetaKeys 0 : Multiset String)
        - expandedKeys 0 glitch_keys [("F0", PriorVal.fixedv 1)] ∧
    (["F1", "F2", "Alpha", "Delta"] : List String) ≠ [] :=
  unpack_completeness.2.2.1 0 [("F0", PriorVal.fixedv 1)] ["F1", "F2", "Alpha", "Delta"]
    (by rintro p hp; rw [List.mem_singleton] at hp; subst hp; simp) rfl

/-! ### C10: tstart/tend insertion by the MCMCSearch constructor -/

theorem dictSet_lookup_self (k : String) (v : PriorVal) :
    ∀ d : List (String × PriorVal), (dictSet d k v).lookup k = some v := by
  intro d
  induction d with
  | nil => simp [dictSet]
  | cons p rest ih =>
      unfold dictSet
      split_ifs with h
      · simp
      · rw [List.lookup_cons]
        have hb : (k == p.1) = false := by
          rw [beq_eq_false_iff_ne]
          exact fun hkp => h hkp.symm
        rw [hb]
        exact ih

theorem dictSet_lookup_ne (k k2 : String) (v : PriorVal) (hne : k2 ≠ k) :
    ∀ d : List (String × PriorVal), (dictSet d k v).lookup k2 = d.lookup k2 := by
  intro d
  have hb : (k2 == k) = false := beq_eq_false_iff_ne.mpr hne
  induction d with
  | nil => simp [dictSet, List.lookup_cons, hb]
  | cons p rest ih =>
      unfold dictSet
      split_ifs with h
      · subst h
        rw [List.lookup_cons, List.lookup_cons, hb]
      · rw [List.lookup_cons, List.lookup_cons]
        cases hpk : (k2 == p.1)
        · exact ih
        · rfl

theorem dictSet_entry_value (k : String) (v : PriorVal) :
    ∀ d : List (String × PriorVal), (d.map Prod.fst).Nodup →
      ∀ p ∈ dictSet d k v, p.1 = k → p.2 = v := by
  intro d
  induction d with
  | nil =>
      intro _ p hp hk
      simp only [dictSet, List.mem_singleton] at hp
      rw [hp]
  | cons q rest ih =>
      intro hnd p hp hk
      rw [List.map_cons, List.nodup_cons] at hnd
      obtain ⟨hq, hndr⟩ := hnd
      unfold dictSet at hp
      split_ifs at hp with h
      · rcases List.mem_cons.mp hp with rfl | hpr
        · rfl
        · exfalso
          apply hq
          rw [h, ← hk]
          exact List.mem_map_of_mem Prod.fst hpr
      · rcases List.mem_cons.mp hp with rfl | hpr
        · exact absurd hk h
        · exact ih hndr p hpr hk

theorem dictSet_keys (k : String) (v : PriorVal) :
    ∀ d : List (String × PriorVal),
      (dictSet d k v).map Prod.fst
        = (if k ∈ d.map Prod.fst then d.map Prod.fst else d.map Prod.fst ++ [k]) := by
  intro d
  induction d with
  | nil => simp [dictSet]
  | cons q rest ih =>
      by_cases h : q.1 = k
      · have hk : k ∈ (q :: rest).map Prod.fst := by
          rw [List.map_cons]
          exact List.mem_cons.mpr (Or.inl h.symm)
        rw [if_pos hk]
        unfold dictSet
        rw [if_pos h, List.map_cons, List.map_cons, h]
      · unfold dictSet
        rw [if_neg h, List.map_cons, ih]
        by_cases hk : k ∈ rest.map Prod.fst
        · rw [if_pos hk, if_pos]
          · rw [List.map_cons]
          · rw [List.map_cons]
            exact List.mem_cons_of_mem _ hk
        · rw [if_neg hk, if_neg]
          · rw [List.map_cons, List.cons_append]
          · rw [List.map_cons, List.mem_cons]
            rintro (h2 | hm)
            · exact h h2.symm
            · exact hk hm

theorem dictSet_keys_nodup (k : String) (v : PriorVal)
    (d : List (String × PriorVal)) (hnd : (d.map Prod.fst).Nodup) :
    ((dictSet d k v).map Prod.fst).Nodup := by
  rw [dictSet_keys]
  split_ifs with h
  · exact hnd
  · simpa [List.nodup_append, h] using hnd

/-- An entry of `dictSet d k v` is either the inserted `(k, v)` or an entry
of `d` with a different key (given unique keys, as a dict has). -/
theorem dictSet_mem (k : String) (v : PriorVal) :
    ∀ d : List (String × PriorVal), (d.map Prod.fst).Nodup →
      ∀ p ∈ dictSet d k v, p = (k, v) ∨ (p ∈ d ∧ p.1 ≠ k) := by
  intro d
  induction d with
  | nil =>
      intro _ p hp
      simp only [dictSet, List.mem_singleton] at hp
      exact Or.inl hp
  | cons q rest ih =>
      intro hnd p hp
      rw [List.map_cons, List.nodup_cons] at hnd
      obtain ⟨hq, hndr⟩ := hnd
      unfold dictSet at hp
      split_ifs at hp with h
      · rcases List.mem_cons.mp hp with rfl | hpr
        · exact Or.inl rfl
        · refine Or.inr ⟨List.mem_cons_of_mem q hpr, ?_⟩
          intro hpk
          apply hq
          rw [h, ← hpk]
          exact List.mem_map_of_mem Prod.fst hpr
      · rcases List.mem_cons.mp hp with rfl | hpr
        · exact Or.inr ⟨List.mem_cons_self _ _, h⟩
        · rcases ih hndr p hpr with hl | ⟨hin, hne⟩
          · exact Or.inl hl
          · exact Or.inr ⟨List.mem_cons_of_mem q hin, hne⟩

/-- Membership in an argsort-reordered key list implies membership in the
original (or the out-of-range default). -/
theorem mem_applyPermStr {x : String} {perm : List ℕ} {l : List String}
    (h : x ∈ applyPermStr perm l) : x ∈ l ∨ x = "" := by
  unfold applyPermStr at h
  obtain ⟨i, _, hx⟩ := List.mem_map.mp h
  by_cases hlt : i < l.length
  · left
    rw [← hx, List.getD_eq_getElem l "" hlt]
    exact List.getElem_mem hlt
  · right
    rw [← hx, List.getD_eq_default]
    omega

/-- Free keys can only be keys whose prior entry is a distribution. -/
theorem mem_bind_keyContrib {x : String} {n : ℕ} {gks : List String}
    {prior : List (String × PriorVal)} (h : x ∈ prior.bind (keyContrib n gks)) :
    ∃ p ∈ prior, p.1 = x ∧ ∃ d, p.2 = PriorVal.dist d := by
  obtain ⟨p, hp, hx⟩ := List.mem_bind.mp h
  refine ⟨p, hp, ?_⟩
  obtain ⟨k, v⟩ := p
  cases v with
  | badval => simp [keyContrib] at hx
  | fixedv y => simp [keyContrib] at hx
  | dist d =>
      refine ⟨?_, d, rfl⟩
      simp only [keyContrib] at hx
      split_ifs at hx with hg
      · exact (List.eq_of_mem_replicate hx).symm
      · rw [List.mem_singleton] at hx
        exact hx.symm

set_option maxHeartbeats 1000000 in
/-- C10: the MCMCSearch constructor inserts 'tstart'/'tend' (bound to its
arguments, as fixed values) into the caller-supplied prior dict before
packing; the non-glitch canonical full-key list is
[tstart, tend, F0, F1, F2, Alpha, Delta] and tstart/tend are never free; the
glitch variant's canonical list contains neither key. -/
theorem mcmc_init_inserts_tstart_tend :
    (∀ (prior : List (String × PriorVal)) (ts te : ℝ),
      (mcmcInitPrior prior ts te).lookup "tstart" = some (.fixedv ts) ∧
      (mcmcInitPrior prior ts te).lookup "tend" = some (.fixedv te)) ∧
    mcmcFullThetaKeys false = ["tstart", "tend", "F0", "F1", "F2", "Alpha", "Delta"] ∧
    (∀ (prior : List (String × PriorVal)) (ts te : ℝ) (l : SearchLayout),
      (prior.map Prod.fst).Nodup →
      plainUnpack false (mcmcInitPrior prior ts te) = .ok l →
      "tstart" ∉ l.theta_keys ∧ "tend" ∉ l.theta_keys) ∧
    (∀ n : ℕ, "tstart" ∉ glitchFullThetaKeys n ∧ "tend" ∉ glitchFullThetaKeys n) := by
  refine ⟨?_, rfl, ?_, ?_⟩
  · intro prior ts te
    constructor
    · rw [mcmcInitPrior, dictSet_lookup_ne "tend" "tstart" _ (by decide),
        dictSet_lookup_self]
    · rw [mcmcInitPrior, dictSet_lookup_self]
  · intro prior ts te l hnd hok
    have hnd2 : ((dictSet prior "tstart" (.fixedv ts)).map Prod.fst).Nodup :=
      dictSet_keys_nodup _ _ prior hnd
    -- every entry of the updated prior keyed tstart or tend holds a fixed value
    have hentry : ∀ p ∈ mcmcInitPrior prior ts te,
        (p.1 = "tstart" → p.2 = PriorVal.fixedv ts) ∧
        (p.1 = "tend" → p.2 = PriorVal.fixedv te) := by
      intro p hp
      rcases dictSet_mem "tend" (.fixedv te) _ hnd2 p hp with rfl | ⟨hpin, hpne⟩
      · exact ⟨fun h => by simp at h, fun _ => rfl⟩
      · rcases dictSet_mem "tstart" (.fixedv ts) _ hnd p hpin with rfl | ⟨_, hpne2⟩
        · exact ⟨fun _ => rfl, fun h => by simp at h⟩
        · exact ⟨fun h => absurd h hpne2, fun h => absurd h hpne⟩
    -- dissect the successful unpack to recover theta_keys
    unfold plainUnpack at hok
    cases hgo : unpackGo 0 [] (mcmcInitPrior prior ts te) (mcmcFullThetaKeys false) [] [] with
    | error e =>
        rw [hgo] at hok
        exact Except.noConfusion hok
    | ok out =>
        obtain ⟨tks, rem, fd⟩ := out
        rw [hgo] at hok
        dsimp only at hok
        by_cases hempty : rem.isEmpty = true
        · rw [if_pos hempty] at hok
          injection hok with hl
          have hwt := unpackGo_ok_no_badval 0 [] (mcmcInitPrior prior ts te) _ _ _ _ hgo
          have htks : tks = (mcmcInitPrior prior ts te).bind (keyContrib 0 []) := by
            have hsp := (unpackGo_spec 0 [] (mcmcInitPrior prior ts te)
              (mcmcFullThetaKeys false) [] [] hwt).2 tks rem fd hgo
            simpa using hsp.1
          have hkeys : ∀ x, x ∈ l.theta_keys → x ∈ tks ∨ x = "" := by
            intro x hx
            rw [← hl] at hx
            exact mem_applyPermStr hx
          constructor
          · intro hmem
            rcases hkeys _ hmem with hx | hx
            · rw [htks] at hx
              obtain ⟨p, hp, hpk, d, hpd⟩ := mem_bind_keyContrib hx
              have := (hentry p hp).1 hpk
              rw [hpd] at this
              exact PriorVal.noConfusion this
            · exact absurd hx (by decide)
          · intro hmem
            rcases hkeys _ hmem with hx | hx
            · rw [htks] at hx
              obtain ⟨p, hp, hpk, d, hpd⟩ := mem_bind_keyContrib hx
              have := (hentry p hp).2 hpk
              rw [hpd] at this
              exact PriorVal.noConfusion this
            · exact absurd hx (by decide)
        · rw [if_neg hempty] at hok
          exact Except.noConfusion hok
  · intro n
    constructor <;>
      simp [glitchFullThetaKeys, List.mem_replicate]

/-- Witness for C10 at a concrete all-free prior over F0..Delta. -/
theorem mcmc_init_inserts_tstart_tend_witness :
    "tstart" ∉ (SearchLayout.mk ["F0", "F1", "F2", "Alpha", "Delta"] [2, 3, 4, 5, 6]
        [1, 2, 0, 0, 0, 0, 0]).theta_keys ∧
    "tend" ∉ (SearchLayout.mk ["F0", "F1", "F2", "Alpha", "Delta"] [2, 3, 4, 5, 6]
        [1, 2, 0, 0, 0, 0, 0]).theta_keys :=
  mcmc_init_inserts_tstart_tend.2.2.1
    [("F0", .dist (.unif 0 1)), ("F1", .dist (.unif 0 1)), ("F2", .dist (.unif 0 1)),
      ("Alpha", .dist (.unif 0 1)), ("Delta", .dist (.unif 0 1))]
    1 2 _ (by decide) rfl

/-! ## Grid enumeration (`GridSearch.get_array_from_tuple` lines 1130-1134,
`GridSearch.get_input_data_array` lines 1136-1147) -/

/-- `np.arange(start, stop, step)` over the reals: `start + k*step` for
`0 <= k < ceil((stop - start)/step)`.  For `step = 0` the length expression
divides by zero and numpy produces no elements (modern numpy raises); with
Lean's 0-valued division by zero the model likewise produces the empty
list. -/
noncomputable def np_arange (start stop step : ℝ) : List ℝ :=
  (List.range (Int.ceil ((stop - start) / step)).toNat).map (fun k => start + k * step)

/-- `get_array_from_tuple`: a length-1 tuple is a fixed value; otherwise
`np.arange(x[0], x[1]*(1+1e-15), x[2])`. -/
noncomputable def get_array_from_tuple (x : List ℝ) : List ℝ :=
  if x.length = 1 then x
  else np_arange (x.getD 0 0) ((x.getD 1 0) * (1 + 1e-15)) (x.getD 2 0)

/-- `itertools.product` over a list of per-parameter arrays. -/
def cartProd : List (List ℝ) → List (List ℝ)
  | [] => [[]]
  | l :: ls => l.bind (fun x => (cartProd ls).map (fun t => x :: t))

/-- `get_input_data_array`: arrays for
`([tstart], [tend], F0s, F1s, F2s, Alphas, Deltas)`, then the Cartesian
product. -/
noncomputable def get_input_data_array (tstart tend : ℝ)
    (F0s F1s F2s Alphas Deltas : List ℝ) : List (List ℝ) :=
  cartProd (([[tstart], [tend], F0s, F1s, F2s, Alphas, Deltas]).map get_array_from_tuple)

theorem cartProd_length : ∀ ls : List (List ℝ),
    (cartProd ls).length = (ls.map List.length).prod := by
  intro ls
  induction ls with
  | nil => rfl
  | cons l rest ih =>
      simp only [cartProd, List.length_flatMap, List.map_cons, List.prod_cons]
      have hfun : (List.length ∘ fun x : ℝ => List.map (fun t => x :: t) (cartProd rest))
          = fun _ => (cartProd rest).length := funext fun x => by simp
      rw [hfun, List.map_const', List.sum_replicate, smul_eq_mul, ih]

/-- C9 counterexample: the per-parameter triple (0,0,0) is a length-3 tuple,
so it goes through `np.arange(0, 0, 0)` and yields no grid point at all (not
a single fixed point), making the example grid empty: 0 combinations rather
than the claimed 3 x 1 = 3. -/
theorem grid_zero_step_counterexample :
    get_array_from_tuple [0, 0, 0] = [] ∧
    (get_input_data_array 100 200 [0, 1, 0.5] [0, 0, 0] [0] [0] [0]).length = 0 ∧
    (0 : ℕ) ≠ 3 := by
  have h1 : get_array_from_tuple [0, 0, 0] = [] := by
    rw [get_array_from_tuple, if_neg (by norm_num)]
    show np_arange 0 (0 * (1 + 1e-15)) 0 = []
    rw [np_arange]
    norm_num
  refine ⟨h1, ?_, by norm_num⟩
  rw [get_input_data_array, cartProd_length]
  apply List.prod_eq_zero
  simp [h1]

/-- C9 amended: a (min, max, step) triple is expanded as
`np.arange(min, max*(1+1e-15), step)` (endpoint inclusive for the example
grid), the enumerated grid is the full Cartesian product whose size is the
product of the per-parameter counts, and the triples (0,1,0.5) and the
singleton [0] (a fixed point is a length-1 tuple, not (0,0,0)) give
3 x 1 = 3 combinations. -/
theorem grid_cartesian_count :
    (∀ ls : List (List ℝ), (cartProd ls).length = (ls.map List.length).prod) ∧
    get_array_from_tuple [0, 1, 0.5] = [0, 0.5, 1] ∧
    (get_input_data_array 100 200 [0, 1, 0.5] [0] [0] [0] [0]).length = 3 := by
  have hceil : Int.ceil (((1 : ℝ) * (1 + 1e-15) - 0) / 0.5) = (3 : ℤ) := by
    rw [Int.ceil_eq_iff]
    norm_num
  have h2 : get_array_from_tuple [0, 1, 0.5] = [0, 0.5, 1] := by
    rw [get_array_from_tuple, if_neg (by norm_num)]
    show np_arange 0 (1 * (1 + 1e-15)) 0.5 = _
    rw [np_arange, hceil]
    show List.map (fun k : ℕ => (0 : ℝ) + ↑k * 0.5) [0, 1, 2] = [0, 0.5, 1]
    norm_num
  refine ⟨cartProd_length, h2, ?_⟩
  rw [get_input_data_array, cartProd_length]
  have h100 : get_array_from_tuple [(100 : ℝ)] = [100] := by
    rw [get_array_from_tuple, if_pos (by norm_num)]
  have h200 : get_array_from_tuple [(200 : ℝ)] = [200] := by
    rw [get_array_from_tuple, if_pos (by norm_num)]
  have h0 : get_array_from_tuple [(0 : ℝ)] = [0] := by
    rw [get_array_from_tuple, if_pos (by norm_num)]
  simp [h100, h200, h2, h0]

/-! ## Result extraction (`MCMCSearch.get_max_twoF`, lines 860-888)

Log-likelihood arrays may hold IEEE infinities, modelled as the EReal poles;
NaN payloads are outside the model.  `np.isfinite` masks the array; the index
of the maximum is taken WITHIN the masked array (`np.nanargmax(lnlikes[idxs])`)
but then used to index the FULL arrays (`self.lnlikes[jmax]`,
`self.samples[jmax]`), faithful to the source. -/

def isFiniteE (v : EReal) : Prop := v ≠ ⊤ ∧ v ≠ ⊥

/-- numpy population standard deviation. -/
noncomputable def npStd (l : List ℝ) : ℝ :=
  Real.sqrt (((l.map (fun x => (x - l.sum / l.length) ^ 2)).sum) / l.length)

/-- `abs((maxtwoF - v)/maxtwoF) < threshold`, with IEEE semantics: when an
operand is infinite the quotient is NaN (inf - inf or inf/inf) and the
comparison is false. -/
noncomputable def closeTest (m v : EReal) (threshold : ℝ) : Prop :=
  isFiniteE m ∧ isFiniteE v ∧ |(m.toReal - v.toReal) / m.toReal| < threshold

/-- First index of the maximum: `np.nanargmax` over a NaN-free array. -/
noncomputable def listArgmax (l : List EReal) : ℕ := l.indexOf (l.foldl max ⊥)

/-- Boolean-mask selection `col[mask]`.  The mask `close_idxs` has the length
of the FILTERED array while `col` is a full column; old numpy padded a short
boolean mask with False, i.e. nothing beyond the mask's length is selected. -/
def maskSelect (col : List ℝ) (mask : List Bool) : List ℝ :=
  ((col.zip mask).filter (fun p => p.2)).map (fun p => p.1)

/-- `np.isfinite` filtering: `self.lnlikes[idxs]`. -/
noncomputable def gmtFinVals (lnlikes : List EReal) : List EReal :=
  lnlikes.filter (fun v => if isFiniteE v then true else false)

/-- `jmax = np.nanargmax(self.lnlikes[idxs])` — an index into the filtered
array. -/
noncomputable def gmtJmax (lnlikes : List EReal) : ℕ := listArgmax (gmtFinVals lnlikes)

/-- `maxtwoF = self.lnlikes[jmax]` — the FULL array indexed by the filtered
index. -/
noncomputable def gmtMax (lnlikes : List EReal) : EReal := lnlikes.getD (gmtJmax lnlikes) ⊥

/-- `close_idxs = abs((maxtwoF - self.lnlikes[idxs]) / maxtwoF) < threshold`. -/
noncomputable def gmtMask (lnlikes : List EReal) (threshold : ℝ) : List Bool :=
  (gmtFinVals lnlikes).map (fun v => if closeTest (gmtMax lnlikes) v threshold then true else false)

/-- The d-building loop over `theta_keys`: each key maps to
`self.samples[jmax][i]` and its `_std` companion to the std of
`self.samples[:, i][close_idxs]`.  A key already present in d is renamed with
suffix `_1` (the source's while-loop never increments its counter `ng`, so
with three or more equal keys it would loop forever; the single bump is
modelled). -/
noncomputable def buildKeyRows (samples : List (List ℝ)) (jmax : ℕ) (mask : List Bool) :
    List String → ℕ → List (String × ℝ) → List (String × ℝ)
  | [], _, dacc => dacc
  | k :: ks, i, dacc =>
      let k2 := if (dacc.lookup k).isSome then k ++ "_1" else k
      let col := samples.map (fun row => row.getD i 0)
      buildKeyRows samples jmax mask ks (i + 1)
        (dacc ++ [(k2, (samples.getD jmax []).getD i 0),
                  (k2 ++ "_std", npStd (maskSelect col mask))])

/-- `MCMCSearch.get_max_twoF` (lines 860-888): the returned dictionary (as an
insertion-ordered association list) and the max statistic. -/
noncomputable def get_max_twoF (lnlikes : List EReal) (samples : List (List ℝ))
    (theta_keys : List String) (threshold : ℝ) : List (String × ℝ) × EReal :=
  (buildKeyRows samples (gmtJmax lnlikes) (gmtMask lnlikes threshold) theta_keys 0 [],
    gmtMax lnlikes)

/-- C6 counterexample: lnlikes = [+inf, 5, 10].  The maximum over the finite
values is 10, attained by the sample [3]; but `jmax` = 1 is the index of 10
in the FILTERED array [5, 10], so the code returns `lnlikes[1] = 5` as the
max and `samples[1] = [2]` as the point. -/
theorem get_max_twoF_nonfinite_counterexample :
    get_max_twoF [⊤, ((5 : ℝ) : EReal), ((10 : ℝ) : EReal)] [[1], [2], [3]] ["F0"] 0.05
      = ([("F0", 2), ("F0_std", 0)], ((5 : ℝ) : EReal)) ∧
    ((5 : ℝ) : EReal) ≠ ((10 : ℝ) : EReal) ∧
    ((10 : ℝ) : EReal) ∈ [(⊤ : EReal), ((5 : ℝ) : EReal), ((10 : ℝ) : EReal)] ∧
    isFiniteE ((10 : ℝ) : EReal) := by
  have hfin : gmtFinVals [⊤, ((5 : ℝ) : EReal), ((10 : ℝ) : EReal)]
      = [((5 : ℝ) : EReal), ((10 : ℝ) : EReal)] := by
    unfold gmtFinVals
    simp [isFiniteE]
  have hmax510 : (max ((5 : ℝ) : EReal) ((10 : ℝ) : EReal)) = ((10 : ℝ) : EReal) := by
    rw [max_eq_right]
    exact_mod_cast (by norm_num : (5 : ℝ) ≤ 10)
  have hfold : ([((5 : ℝ) : EReal), ((10 : ℝ) : EReal)].foldl max ⊥) = ((10 : ℝ) : EReal) := by
    simp only [List.foldl]
    rw [max_eq_right bot_le, hmax510]
  have hjmax : gmtJmax [⊤, ((5 : ℝ) : EReal), ((10 : ℝ) : EReal)] = 1 := by
    unfold gmtJmax listArgmax
    rw [hfin, hfold]
    rw [List.indexOf_cons, List.indexOf_cons]
    have h5 : (((5 : ℝ) : EReal) == ((10 : ℝ) : EReal)) = false := by
      rw [beq_eq_false_iff_ne]
      exact_mod_cast (by norm_num : (5 : ℝ) ≠ 10)
    have h10 : (((10 : ℝ) : EReal) == ((10 : ℝ) : EReal)) = true := by
      rw [beq_iff_eq]
    rw [h5, h10]
    rfl
  have hmax : gmtMax [⊤, ((5 : ℝ) : EReal), ((10 : ℝ) : EReal)] = ((5 : ℝ) : EReal) := by
    unfold gmtMax
    rw [hjmax]
    rfl
  have hmask : gmtMask [⊤, ((5 : ℝ) : EReal), ((10 : ℝ) : EReal)] 0.05 = [true, false] := by
    unfold gmtMask
    rw [hfin, hmax]
    simp only [List.map_cons, List.map_nil]
    have hct1 : closeTest ((5 : ℝ) : EReal) ((5 : ℝ) : EReal) 0.05 := by
      refine ⟨⟨by simp, by simp⟩, ⟨by simp, by simp⟩, ?_⟩
      norm_num [EReal.toReal_coe]
    have hct2 : ¬ closeTest ((5 : ℝ) : EReal) ((10 : ℝ) : EReal) 0.05 := by
      intro hcl
      have h3 := hcl.2.2
      norm_num [EReal.toReal_coe] at h3
    rw [if_pos hct1, if_neg hct2]
  constructor
  · unfold get_max_twoF
    rw [hjmax, hmax, hmask]
    unfold buildKeyRows
    simp only [List.lookup_nil, Option.isSome_none, Bool.false_eq_true, if_false]
    unfold buildKeyRows
    have hsel : maskSelect ([[(1 : ℝ)], [2], [3]].map (fun row => row.getD 0 0)) [true, false]
        = [1] := rfl
    rw [hsel]
    have hstd : npStd [1] = 0 := by
      unfold npStd
      norm_num
    rw [hstd]
    rfl
  · refine ⟨?_, by simp, by simp [isFiniteE]⟩
    intro h
    have : (5 : ℝ) = 10 := by exact_mod_cast h
    norm_num at this

/-! ### The all-finite specification of get_max_twoF -/

theorem gmtFinVals_coe (ls : List ℝ) :
    gmtFinVals (ls.map (fun x => ((x : ℝ) : EReal))) = ls.map (fun x => ((x : ℝ) : EReal)) := by
  unfold gmtFinVals
  apply List.filter_eq_self.mpr
  intro v hv
  obtain ⟨x, _, rfl⟩ := List.mem_map.mp hv
  rw [if_pos ⟨EReal.coe_ne_top x, EReal.coe_ne_bot x⟩]

theorem foldl_max_coe : ∀ (ls : List ℝ) (a : ℝ),
    (ls.map (fun x => ((x : ℝ) : EReal))).foldl max ((a : ℝ) : EReal)
      = ((ls.foldl max a : ℝ) : EReal) := by
  intro ls
  induction ls with
  | nil => intro a; rfl
  | cons x t ih =>
      intro a
      rw [List.map_cons, List.foldl_cons, List.foldl_cons,
        show (max ((a : ℝ) : EReal) ((x : ℝ) : EReal)) = ((max a x : ℝ) : EReal) from
          (EReal.coe_strictMono.monotone.map_max).symm]
      exact ih (max a x)

theorem foldl_max_mem_eq : ∀ (t : List ℝ) (a m : ℝ), a ≤ m → (∀ x ∈ t, x ≤ m) →
    (a = m ∨ m ∈ t) → t.foldl max a = m := by
  intro t
  induction t with
  | nil =>
      intro a m _ _ hm
      rcases hm with rfl | h
      · rfl
      · simp at h
  | cons x t2 ih =>
      intro a m ham hall hm
      rw [List.foldl_cons]
      apply ih (max a x) m (max_le ham (hall x (List.mem_cons_self _ _)))
        (fun y hy => hall y (List.mem_cons_of_mem x hy))
      rcases hm with rfl | hm2
      · exact Or.inl (max_eq_left (hall x (List.mem_cons_self _ _)))
      · rcases List.mem_cons.mp hm2 with rfl | hm3
        · exact Or.inl (max_eq_right ham)
        · exact Or.inr hm3

theorem indexOf_map_coe_first : ∀ (ls : List ℝ) (j : ℕ) (m : ℝ),
    j < ls.length → ls.getD j 0 = m → (∀ i, i < j → ls.getD i 0 ≠ m) →
    (ls.map (fun x => ((x : ℝ) : EReal))).indexOf ((m : ℝ) : EReal) = j := by
  intro ls
  induction ls with
  | nil =>
      intro j m hj _ _
      simp at hj
  | cons x t ih =>
      intro j m hj hjm hfirst
      cases j with
      | zero =>
          have hx : x = m := hjm
          rw [List.map_cons, List.indexOf_cons,
            show (((x : ℝ) : EReal) == ((m : ℝ) : EReal)) = true by
              rw [beq_iff_eq]; exact_mod_cast hx]
          rfl
      | succ j2 =>
          have hx : x ≠ m := by
            have := hfirst 0 (Nat.succ_pos _)
            simpa using this
          rw [List.map_cons, List.indexOf_cons,
            show (((x : ℝ) : EReal) == ((m : ℝ) : EReal)) = false by
              rw [beq_eq_false_iff_ne]
              intro hc
              exact hx (by exact_mod_cast hc)]
          show (t.map (fun x => ((x : ℝ) : EReal))).indexOf ((m : ℝ) : EReal) + 1 = j2 + 1
          rw [ih j2 m (by simpa using hj) (by simpa using hjm)
            (fun i hi => by simpa using hfirst (i + 1) (by omega))]

theorem getD_map_coe (ls : List ℝ) (j : ℕ) (hj : j < ls.length) :
    (ls.map (fun x => ((x : ℝ) : EReal))).getD j ⊥ = ((ls.getD j 0 : ℝ) : EReal) := by
  rw [List.getD_eq_getElem _ _ (by simpa using hj), List.getD_eq_getElem _ _ hj,
    List.getElem_map]

theorem lookup_append_none {l1 l2 : List (String × ℝ)} {a : String}
    (h1 : l1.lookup a = none) : (l1 ++ l2).lookup a = l2.lookup a := by
  induction l1 with
  | nil => rfl
  | cons p t ih =>
      rw [List.cons_append, List.lookup_cons]
      rw [List.lookup_cons] at h1
      cases hb : (a == p.1) with
      | true => rw [hb] at h1; exact absurd h1 (by simp)
      | false => rw [hb] at h1; exact ih h1

theorem buildKeyRows_spec (samples : List (List ℝ)) (jmax : ℕ) (mask : List Bool) :
    ∀ (ks : List String) (i : ℕ) (dacc : List (String × ℝ)),
    ks.Nodup →
    (∀ k1 ∈ ks, ∀ k2 ∈ ks, k1 ≠ k2 ++ "_std") →
    (∀ k ∈ ks, dacc.lookup k = none) →
    buildKeyRows samples jmax mask ks i dacc
      = dacc ++ (List.range ks.length).flatMap (fun t =>
          [(ks.getD t "", (samples.getD jmax []).getD (i + t) 0),
           (ks.getD t "" ++ "_std",
             npStd (maskSelect (samples.map (fun row => row.getD (i + t) 0)) mask))]) := by
  intro ks
  induction ks with
  | nil =>
      intro i dacc _ _ _
      simp [buildKeyRows]
  | cons k ks ih =>
      intro i dacc hnd hstd hnone
      rw [List.nodup_cons] at hnd
      obtain ⟨hk, hnd2⟩ := hnd
      unfold buildKeyRows
      have h0 : dacc.lookup k = none := hnone k (List.mem_cons_self _ _)
      simp only [h0, Option.isSome_none, Bool.false_eq_true, if_false]
      have hnone2 : ∀ k2 ∈ ks,
          (dacc ++ [(k, (samples.getD jmax []).getD i 0),
            (k ++ "_std", npStd (maskSelect (samples.map (fun row => row.getD i 0)) mask))]).lookup
              k2 = none := by
        intro k2 hk2
        rw [lookup_append_none (hnone k2 (List.mem_cons_of_mem k hk2)), List.lookup_cons]
        rw [show (k2 == k) = false by
          rw [beq_eq_false_iff_ne]
          intro hc
          exact hk (hc ▸ hk2)]
        rw [List.lookup_cons]
        rw [show (k2 == k ++ "_std") = false by
          rw [beq_eq_false_iff_ne]
          exact hstd k2 (List.mem_cons_of_mem k hk2) k (List.mem_cons_self _ _)]
        rfl
      rw [ih (i + 1) _ hnd2
        (fun k1 h1 k2 h2 => hstd k1 (List.mem_cons_of_mem k h1) k2 (List.mem_cons_of_mem k h2))
        hnone2]
      rw [List.append_assoc]
      congr 1
      rw [List.length_cons, List.range_succ_eq_map, List.flatMap_cons, List.flatMap_map]
      congr 1
      apply List.flatMap_congr
      intro t _
      simp only [List.getD_cons_succ, Nat.add_succ, Nat.succ_add]

theorem gmtJmax_coe (ls : List ℝ) (m : ℝ) (j : ℕ) (hj : j < ls.length)
    (hjm : ls.getD j 0 = m) (hmax : ∀ x ∈ ls, x ≤ m)
    (hfirst : ∀ i, i < j → ls.getD i 0 ≠ m) :
    gmtJmax (ls.map (fun x => ((x : ℝ) : EReal))) = j := by
  unfold gmtJmax listArgmax
  rw [gmtFinVals_coe]
  have hmem : m ∈ ls := by
    rw [← hjm, List.getD_eq_getElem _ _ hj]
    exact List.getElem_mem hj
  cases ls with
  | nil => simp at hj
  | cons x t =>
      rw [List.map_cons, List.foldl_cons, max_eq_right bot_le, foldl_max_coe,
        foldl_max_mem_eq t x m (hmax x (List.mem_cons_self _ _))
          (fun y hy => hmax y (List.mem_cons_of_mem x hy))
          (by rcases List.mem_cons.mp hmem with h | h
              · exact Or.inl h.symm
              · exact Or.inr h)]
      exact indexOf_map_coe_first (x :: t) j m hj hjm hfirst

theorem gmtMax_coe (ls : List ℝ) (m : ℝ) (j : ℕ) (hj : j < ls.length)
    (hjm : ls.getD j 0 = m) (hmax : ∀ x ∈ ls, x ≤ m)
    (hfirst : ∀ i, i < j → ls.getD i 0 ≠ m) :
    gmtMax (ls.map (fun x => ((x : ℝ) : EReal))) = ((m : ℝ) : EReal) := by
  unfold gmtMax
  rw [gmtJmax_coe ls m j hj hjm hmax hfirst, getD_map_coe ls j hj, hjm]

theorem gmtMask_coe (ls : List ℝ) (m : ℝ) (j : ℕ) (threshold : ℝ) (hj : j < ls.length)
    (hjm : ls.getD j 0 = m) (hmax : ∀ x ∈ ls, x ≤ m)
    (hfirst : ∀ i, i < j → ls.getD i 0 ≠ m) :
    gmtMask (ls.map (fun x => ((x : ℝ) : EReal))) threshold
      = ls.map (fun x => if |(m - x) / m| < threshold then true else false) := by
  unfold gmtMask
  rw [gmtFinVals_coe, gmtMax_coe ls m j hj hjm hmax hfirst, List.map_map]
  apply List.map_congr_left
  intro x _
  by_cases hcl : |(m - x) / m| < threshold
  · rw [Function.comp_apply, if_pos, if_pos hcl]
    exact ⟨⟨EReal.coe_ne_top m, EReal.coe_ne_bot m⟩,
      ⟨EReal.coe_ne_top x, EReal.coe_ne_bot x⟩, by simpa [EReal.toReal_coe] using hcl⟩
  · rw [Function.comp_apply, if_neg, if_neg hcl]
    intro hc
    exact hcl (by simpa [EReal.toReal_coe] using hc.2.2)

/-- C6 amended: when every log-likelihood is finite, `get_max_twoF` returns
the maximum statistic together with the dictionary mapping each free key to
the coordinates of the first sample attaining that maximum, and each
`_std` entry to the standard deviation over exactly those samples whose
statistic lies within the relative `threshold` of the maximum.  (Key
collisions, which trigger the renaming loop, are excluded.) -/
theorem get_max_twoF_finite_spec (ls : List ℝ) (samples : List (List ℝ))
    (keys : List String) (threshold : ℝ) (m : ℝ) (j : ℕ)
    (hj : j < ls.length) (hjm : ls.getD j 0 = m)
    (hmax : ∀ x ∈ ls, x ≤ m) (hfirst : ∀ i, i < j → ls.getD i 0 ≠ m)
    (hkeys : keys.Nodup) (hstd : ∀ k1 ∈ keys, ∀ k2 ∈ keys, k1 ≠ k2 ++ "_std") :
    get_max_twoF (ls.map (fun x => ((x : ℝ) : EReal))) samples keys threshold
      = ((List.range keys.length).flatMap (fun t =>
          [(keys.getD t "", (samples.getD j []).getD t 0),
           (keys.getD t "" ++ "_std",
             npStd (maskSelect (samples.map (fun row => row.getD t 0))
               (ls.map (fun x => if |(m - x) / m| < threshold then true else false))))]),
        ((m : ℝ) : EReal)) := by
  unfold get_max_twoF
  rw [gmtJmax_coe ls m j hj hjm hmax hfirst, gmtMax_coe ls m j hj hjm hmax hfirst,
    gmtMask_coe ls m j threshold hj hjm hmax hfirst,
    buildKeyRows_spec samples j _ keys 0 [] hkeys hstd (fun k _ => rfl)]
  rw [List.nil_append]
  simp only [Nat.zero_add]

/-- Witness for the amended C6 at lnlikes = [1, 5], samples [[10], [20]],
threshold 0.05. -/
theorem get_max_twoF_finite_spec_witness :
    get_max_twoF [((1 : ℝ) : EReal), ((5 : ℝ) : EReal)] [[10], [20]] ["F0"] 0.05
      = ((List.range 1).flatMap (fun t =>
          [((["F0"] : List String).getD t "", (([[10], [20]] : List (List ℝ)).getD 1 []).getD t 0),
           ((["F0"] : List String).getD t "" ++ "_std",
             npStd (maskSelect (([[10], [20]] : List (List ℝ)).map (fun row => row.getD t 0))
               (([1, 5] : List ℝ).map
                 (fun x => if |((5 : ℝ) - x) / 5| < 0.05 then true else false))))]),
        ((5 : ℝ) : EReal)) :=
  get_max_twoF_finite_spec [1, 5] [[10], [20]] ["F0"] 0.05 5 1
    (by norm_num) rfl
    (by intro x hx
        rcases List.mem_cons.mp hx with rfl | hx2
        · norm_num
        · rcases List.mem_cons.mp hx2 with rfl | hx3
          · norm_num
          · simp at hx3)
    (by intro i hi
        have hi0 : i = 0 := by omega
        subst hi0
        norm_num)
    (by simp)
    (by intro k1 h1 k2 h2
        rw [List.mem_singleton] at h1 h2
        subst h1
        subst h2
        decide)

end PyFstat
